import Mathlib

/-!
Verification of the OCR preprocessing pipeline in `preprocess.py`
(phughesmcr/digitaldouay).

The Python source drives a fixed sequence of OpenCV transforms over grayscale
raster images.  We embed the pipeline shallowly:

* a grayscale image is a structure `Gray` with a height, a width and a total
  pixel function `Nat → Nat → Nat` (only indices below the dimensions are
  meaningful);
* the three-channel annotated variant produced by `segment_image` is `Rgb`;
* a pipeline value is the tagged union `Img` (grayscale or color), as the
  segmentation stage can return either;
* fallible OpenCV calls are `Except PyErr _`.  OpenCV raises `cv2.error`
  (an assertion failure) when an operation receives an empty image; Python
  raises `ZeroDivisionError` on division by zero.  The stages that the
  pipeline can actually reach with a degenerate image are modelled with the
  corresponding guard.

External OpenCV primitives have no source in this repository; each is given a
computable model, documented at its definition, faithful in every aspect a
claim depends on (dimensions, guards, polarity, constant propagation,
emptiness of the contour set).  Floating-point kernels are modelled with
exact integer/rational arithmetic, with the deviation noted where it exists.
-/

namespace Preprocess

/-- A grayscale raster image: height, width, and the pixel buffer as a total
function on coordinates (row, column).  Models a 2-D `numpy` `uint8` array. -/
structure Gray where
  h : Nat
  w : Nat
  pix : Nat → Nat → Nat

/-- A three-channel (BGR) raster image, produced by `cv2.cvtColor` with
`COLOR_GRAY2BGR` inside `segment_image`. -/
structure Rgb where
  h : Nat
  w : Nat
  pix : Nat → Nat → Nat × Nat × Nat

/-- A pipeline image: the segmentation stage returns either its grayscale
input (fallback) or a three-channel annotated image, so the stages around it
handle a tagged union. -/
inductive Img where
  | gray (im : Gray)
  | color (im : Rgb)

/-- Height of a pipeline image. -/
def Img.height : Img → Nat
  | .gray im => im.h
  | .color im => im.h

/-- Width of a pipeline image. -/
def Img.width : Img → Nat
  | .gray im => im.w
  | .color im => im.w

/-- The Python-level failures the pipeline can raise: an OpenCV assertion
failure (`cv2.error`) or a Python `ZeroDivisionError`. -/
inductive PyErr where
  | cvError (msg : String)
  | zeroDivisionError

/-- Clamp an integer coordinate into `[0, n-1]` (replicate border).  OpenCV's
border handling differs between operations (replicate for `adaptiveThreshold`
and `medianBlur`, reflect-101 for `GaussianBlur`, infinity padding for the
morphology, which coincides with replicate for min/max); every evaluation a
claim needs is on a constant image, where all border modes agree. -/
def clampIdx (n : Nat) (i : Int) : Nat :=
  (max 0 (min i ((n : Int) - 1))).toNat

/-- Read a pixel at integer coordinates with replicate border. -/
def getCl (im : Gray) (i j : Int) : Nat :=
  im.pix (clampIdx im.h i) (clampIdx im.w j)

/-- `crop` (preprocess.py lines 76–83): `image[:-250, 20:-20]`.
`numpy` basic slicing clamps, so the result has height `h - 250` and width
`w - 40` in truncated natural subtraction — for an input at or below the
margins the result is a zero-area view, not an error.  Pixel `(i, j)` of the
result is pixel `(i, j + 20)` of the input (the removed rows are the bottom
250, the removed columns are 20 on each side). -/
def crop (image : Gray) : Gray :=
  ⟨image.h - 250, image.w - 40, fun i j => image.pix i (j + 20)⟩

/-- Flatten the in-range pixels of an image into a row-major list. -/
def regionList (im : Gray) : List Nat :=
  (List.range im.h).flatMap fun i => (List.range im.w).map fun j => im.pix i j

/-- Minimum in-range pixel value (meaningful for non-empty images).
Models the `minMaxIdx` scan inside `cv2.normalize`. -/
def minPix (im : Gray) : Nat :=
  (regionList im).foldl min (im.pix 0 0)

/-- Maximum in-range pixel value (meaningful for non-empty images). -/
def maxPix (im : Gray) : Nat :=
  (regionList im).foldl max (im.pix 0 0)

/-- Round `a / b` to the nearest integer, ties to even — the semantics of
OpenCV's `cvRound` / `saturate_cast` used by `convertTo`. -/
def rdivEven (a b : Nat) : Nat :=
  let q := a / b
  let r := a % b
  if 2 * r < b then q
  else if b < 2 * r then q + 1
  else if q % 2 = 0 then q else q + 1

/-- The per-pixel map of `cv2.normalize(image, None, alpha=0, beta=255,
norm_type=NORM_MINMAX)`.  OpenCV computes `scale = (255 - 0) * (smax - smin >
eps ? 1/(smax - smin) : 0)` and `shift = 0 - smin * scale`, then
`saturate_cast(round(p * scale + shift))`.  For a constant image `scale = 0`
and `shift = 0`, so every pixel maps to `0`. -/
def normalizePix (im : Gray) : Nat → Nat → Nat := fun i j =>
  if maxPix im ≤ minPix im then 0
  else min 255 (rdivEven ((im.pix i j - minPix im) * 255) (maxPix im - minPix im))

/-- `normalize` (preprocess.py lines 93–98): min–max contrast stretch via
`cv2.normalize`.  OpenCV's `minMaxIdx` asserts on an empty input, so the
stage fails with `cv2.error` when the image has zero area. -/
def normalize (image : Gray) : Except PyErr Gray :=
  if image.h * image.w = 0 then .error (.cvError "minMaxIdx: empty input")
  else .ok ⟨image.h, image.w, normalizePix image⟩

/-- `resize` (preprocess.py lines 138–146) on a grayscale image.
`new_width = int(width * (new_height / float(height)))`: Python `int()`
TRUNCATES, modelled as natural floor division `w * 1568 / h` (the
floating-point product is modelled in exact arithmetic; no claim depends on
the borderline cases where IEEE rounding of the quotient differs).  Python
raises `ZeroDivisionError` when `height = 0`; `cv2.resize` asserts when the
requested size is empty, i.e. when the truncated width is `0`.  Pixel values
are produced by Lanczos interpolation in OpenCV; no claim depends on them,
and they are modelled by nearest-coordinate sampling. -/
def resizeGray (im : Gray) (new_height : Nat) : Except PyErr Gray :=
  if im.h = 0 then .error .zeroDivisionError
  else
    let new_width := im.w * new_height / im.h
    if new_width = 0 then .error (.cvError "resize: empty dsize")
    else .ok ⟨new_height, new_width,
      fun i j => im.pix (i * im.h / new_height) (j * im.w / new_width)⟩

/-- `resize` on the tagged union: `cv2.resize` keeps the channel count. -/
def resize (image : Img) (new_height : Nat := 1568) : Except PyErr Img :=
  match image with
  | .gray im => (resizeGray im new_height).map .gray
  | .color im =>
    if im.h = 0 then .error .zeroDivisionError
    else
      let new_width := im.w * new_height / im.h
      if new_width = 0 then .error (.cvError "resize: empty dsize")
      else .ok (.color ⟨new_height, new_width,
        fun i j => im.pix (i * im.h / new_height) (j * im.w / new_width)⟩)

/-- Width of the output of `resize`, as the SPEC states it: `round(w × 1568 /
h)`, rounding to nearest.  Modelled from the spec (§8: "output width =
round(input-to-resize width × 1568 / input-to-resize height)") for comparison
with the source's truncating computation. -/
def specResizeWidth (w h : Nat) : Int :=
  round ((w * 1568 : ℚ) / (h : ℚ))

/-- Symmetric offsets `-(k/2) … k/2` of an odd-sized kernel of `k` taps. -/
def offs (k : Nat) : List Int :=
  (List.range k).map fun t : Nat => (t : Int) - ((k / 2 : Nat) : Int)

/-- Row `n` of Pascal's triangle, computed by the stable iterative product
(avoids the exponential kernel reduction of the recursive `Nat.choose`). -/
def binomRow (n : Nat) : List Nat :=
  (List.range n).scanl (fun acc i => acc * (n - i) / (i + 1)) 1

/-- Integer weights of a `k`-tap Gaussian kernel, modelled as binomial
coefficients.  For `k = 5` this is `[1, 4, 6, 4, 1]`, exactly OpenCV's fixed
small kernel for `ksize = 5` with `sigma = 0` (the case used by `binarize`
and `enthicken`); for the other sizes the code uses (11 and the 19×233 of
`enthicken`) the true weights are floating-point Gaussians and the binomial
profile is an integer-weight model — no claim depends on those weights. -/
def gaussW (k : Nat) : List Nat :=
  binomRow (k - 1)

/-- Kernel taps: each offset paired with its weight. -/
def taps (k : Nat) : List (Int × Nat) :=
  (offs k).zip (gaussW k)

/-- Round `a / b` to nearest, half up — OpenCV's fixed-point filter rounding
(`+ (1 << (bits-1)) >> bits`). -/
def roundDiv (a b : Nat) : Nat :=
  (2 * a + b) / (2 * b)

/-- One output pixel of a separable blur with `kh × kw` binomial weights and
replicate border: the weighted neighborhood mean, rounded to nearest. -/
def gBlurPix (kh kw : Nat) (im : Gray) (i j : Nat) : Nat :=
  roundDiv
    (((taps kh).map fun di =>
      ((taps kw).map fun dj =>
        di.2 * dj.2 * getCl im ((i : Int) + di.1) ((j : Int) + dj.1)).sum).sum)
    ((gaussW kh).sum * (gaussW kw).sum)

/-- Model of `cv2.GaussianBlur(img, (kw, kh), 0)` (OpenCV's `ksize` is
`(width, height)`). -/
def gaussianBlur (kw kh : Nat) (im : Gray) : Gray :=
  ⟨im.h, im.w, gBlurPix kh kw im⟩

/-- The local threshold of `cv2.adaptiveThreshold(…, ADAPTIVE_THRESH_GAUSSIAN_C,
…, 11, 2)` at one pixel: the Gaussian-weighted mean of the 11×11 neighborhood,
minus the constant `C = 2`, as an integer (wrapped to `Int` because the mean
can be below 2). -/
def adaptiveMean11 (im : Gray) (i j : Nat) : Int :=
  (gBlurPix 11 11 im i j : Int)

/-- The per-pixel map of `cv2.adaptiveThreshold(…, THRESH_BINARY, 11, 2)`
applied to the blurred image: a pixel STRICTLY ABOVE its local threshold
(the 11×11 Gaussian mean minus 2) becomes `maxValue = 255`, any other
becomes 0. -/
def binarizePix (bl : Gray) : Nat → Nat → Nat := fun i j =>
  if adaptiveMean11 bl i j - 2 < (bl.pix i j : Int) then 255 else 0

/-- `binarize` (preprocess.py lines 101–111): a 5×5 Gaussian blur followed by
`cv2.adaptiveThreshold(image, 255, ADAPTIVE_THRESH_GAUSSIAN_C, THRESH_BINARY,
11, 2)`.  OpenCV asserts on an empty input. -/
def binarize (image : Gray) : Except PyErr Gray :=
  if image.h * image.w = 0 then .error (.cvError "adaptiveThreshold: empty input")
  else .ok ⟨image.h, image.w, binarizePix (gaussianBlur 5 5 image)⟩

/-- Insert into a sorted list (ascending). -/
def insSorted (x : Nat) : List Nat → List Nat
  | [] => [x]
  | y :: ys => if x ≤ y then x :: y :: ys else y :: insSorted x ys

/-- Insertion sort, ascending. -/
def sortNat (l : List Nat) : List Nat :=
  l.foldr insSorted []

/-- The `k × k` neighborhood of a pixel, replicate border, row-major. -/
def nbhd (k : Nat) (im : Gray) (i j : Nat) : List Nat :=
  (offs k).flatMap fun di =>
    (offs k).map fun dj => getCl im ((i : Int) + di) ((j : Int) + dj)

/-- Model of `cv2.medianBlur(img, k)`: each pixel becomes the median of its
`k × k` neighborhood (replicate border, matching OpenCV). -/
def medianBlur (k : Nat) (im : Gray) : Gray :=
  ⟨im.h, im.w, fun i j => (sortNat (nbhd k im i j)).getD (k * k / 2) 0⟩

/-- Model of `cv2.dilate` with a `k × k` all-ones structuring element:
neighborhood maximum (OpenCV pads with `-inf`, so the maximum over the
clamped neighborhood coincides). -/
def dilate (k : Nat) (im : Gray) : Gray :=
  ⟨im.h, im.w, fun i j => (nbhd k im i j).foldl max (im.pix i j)⟩

/-- Model of `cv2.erode` with a `k × k` all-ones structuring element:
neighborhood minimum. -/
def erode (k : Nat) (im : Gray) : Gray :=
  ⟨im.h, im.w, fun i j => (nbhd k im i j).foldl min (im.pix i j)⟩

/-- Model of `cv2.morphologyEx(img, MORPH_CLOSE, kernel k×k)`: dilation then
erosion. -/
def morphClose (k : Nat) (im : Gray) : Gray :=
  erode k (dilate k im)

/-- `denoise` (preprocess.py lines 128–135): a 5×5 median filter followed by
a morphological closing with a 5×5 rectangular element.  OpenCV asserts on an
empty input. -/
def denoise (image : Gray) : Except PyErr Gray :=
  if image.h * image.w = 0 then .error (.cvError "medianBlur: empty input")
  else .ok (morphClose 5 (medianBlur 5 image))

/-- `cover_watermark_remnants` (preprocess.py lines 86–90):
`cv2.rectangle(image, (0, 4375), (300, 4433), (255), -1)` — a filled white
rectangle over columns 0–300 of rows 4375–4433 (`cv2` points are `(x, y)`
and both corners are included; the drawing clips to the image). -/
def cover_watermark_remnants (image : Gray) : Gray :=
  ⟨image.h, image.w, fun i j =>
    if 4375 ≤ i ∧ i ≤ 4433 ∧ j ≤ 300 then 255 else image.pix i j⟩

/-- Model of `cv2.bitwise_not` on an 8-bit image: `p ↦ 255 - p`. -/
def bitwiseNot (im : Gray) : Gray :=
  ⟨im.h, im.w, fun i j => 255 - im.pix i j⟩

/-- `fix_font` (preprocess.py lines 114–125): invert, erode 3×3, dilate 3×3,
close 7×7, invert back.  OpenCV asserts on an empty input. -/
def fix_font (image : Gray) : Except PyErr Gray :=
  if image.h * image.w = 0 then .error (.cvError "erode: empty input")
  else .ok (bitwiseNot (morphClose 7 (dilate 3 (erode 3 (bitwiseNot image)))))

/-- The 3×3 Sobel taps for the horizontal gradient: `(di, dj, weight)`. -/
def sobelX : List (Int × Int × Int) :=
  [(-1, -1, -1), (-1, 0, 0), (-1, 1, 1),
   (0, -1, -2), (0, 0, 0), (0, 1, 2),
   (1, -1, -1), (1, 0, 0), (1, 1, 1)]

/-- The 3×3 Sobel taps for the vertical gradient. -/
def sobelY : List (Int × Int × Int) :=
  [(-1, -1, -1), (-1, 0, -2), (-1, 1, -1),
   (0, -1, 0), (0, 0, 0), (0, 1, 0),
   (1, -1, 1), (1, 0, 2), (1, 1, 1)]

/-- Horizontal Sobel gradient at a pixel. -/
def gradX (im : Gray) (i j : Nat) : Int :=
  (sobelX.map fun t => t.2.2 * (getCl im ((i : Int) + t.1) ((j : Int) + t.2.1) : Int)).sum

/-- Vertical Sobel gradient at a pixel. -/
def gradY (im : Gray) (i j : Nat) : Int :=
  (sobelY.map fun t => t.2.2 * (getCl im ((i : Int) + t.1) ((j : Int) + t.2.1) : Int)).sum

/-- Model of `cv2.Canny(img, 0, 175, apertureSize=3)`: a pixel is an edge
(255) when its L1 gradient magnitude `|gx| + |gy|` (the default
`L2gradient=False` norm over 3×3 Sobel derivatives) exceeds the high
threshold 175.  Non-maximum suppression and the low-threshold hysteresis are
not modelled — no claim depends on the precise edge set, only on the facts
that a constant image yields no edges and that the output is a 0/255 mask of
the same dimensions, which hold of the real operator as well. -/
def canny (im : Gray) (hi : Nat) : Gray :=
  ⟨im.h, im.w, fun i j =>
    if (hi : Int) < (gradX im i j).natAbs + (gradY im i j).natAbs then 255 else 0⟩

/-- Histogram count of value `v` among the in-range pixels. -/
def histCount (im : Gray) (v : Nat) : Nat :=
  ((regionList im).filter fun p => p = v).length

/-- The Otsu objective at candidate threshold `t` (classes `≤ t` and `> t`):
between-class variance up to the constant factor `n²`, i.e.
`(s0·n1 − s1·n0)² / (n0·n1)`, and `0` when a class is empty. -/
def otsuScore (im : Gray) (t : Nat) : ℚ :=
  let lo := (List.range (t + 1)).map fun v => histCount im v
  let hi := ((List.range 256).drop (t + 1)).map fun v => histCount im v
  let n0 := lo.sum
  let n1 := hi.sum
  let s0 := ((List.range (t + 1)).map fun v => v * histCount im v).sum
  let s1 := (((List.range 256).drop (t + 1)).map fun v => v * histCount im v).sum
  if n0 = 0 ∨ n1 = 0 then 0
  else (((s0 * n1 : Int) - (s1 * n0 : Int)) ^ 2 : ℚ) / ((n0 * n1 : Nat) : ℚ)

/-- Model of the Otsu threshold selection inside `cv2.threshold(…,
THRESH_OTSU)`: the candidate maximizing the between-class variance, first
maximum kept (OpenCV compares with strict `>`). -/
def otsuThreshold (im : Gray) : Nat :=
  ((List.range 256).foldl
    (fun acc t => if acc.2 < otsuScore im t then (t, otsuScore im t) else acc)
    (0, otsuScore im 0)).1

/-- Model of `cv2.threshold(img, 0, 255, THRESH_BINARY + THRESH_OTSU)`:
binarize at the Otsu threshold, strictly-above to 255. -/
def thresholdOtsu (im : Gray) : Gray :=
  ⟨im.h, im.w, fun i j => if otsuThreshold im < im.pix i j then 255 else 0⟩

/-- `enthicken` (preprocess.py lines 25–35): Canny edges (0, 175), dilation
with a 7×7 ones kernel, closing with 5×5, Gaussian blur with
`ksize = (19, 233)` (width 19, height 233), then Otsu binarization. -/
def enthicken (img : Gray) : Gray :=
  thresholdOtsu (gaussianBlur 19 233 (morphClose 5 (dilate 7 (canny img 175))))

/-- The in-range coordinates of the nonzero pixels of a mask, row-major. -/
def nonzeroPix (im : Gray) : List (Nat × Nat) :=
  (List.range im.h).flatMap fun i =>
    ((List.range im.w).filter fun j => im.pix i j ≠ 0).map fun j => (i, j)

/-- 8-neighborhood adjacency (or equality) of two pixel coordinates. -/
def adj8 (p q : Nat × Nat) : Bool :=
  p.1 ≤ q.1 + 1 && q.1 ≤ p.1 + 1 && p.2 ≤ q.2 + 1 && q.2 ≤ p.2 + 1

/-- Add one pixel to a partition into connected pixel sets, merging every
set it touches. -/
def addPix (comps : List (List (Nat × Nat))) (p : Nat × Nat) :
    List (List (Nat × Nat)) :=
  let parts := comps.partition fun c => c.any (adj8 p)
  (p :: parts.1.flatten) :: parts.2

/-- Model of `cv2.findContours(mask, RETR_EXTERNAL, CHAIN_APPROX_SIMPLE)`:
one entry per 8-connected component of the nonzero pixels, here carried as
the component's pixel set (the real call returns the boundary polygon; the
bounding rectangle of a component equals that of its boundary, and the
contour list is empty exactly when the mask has no nonzero pixel, which is
all the claims use).  `RETR_EXTERNAL`'s suppression of nested contours is not
modelled. -/
def findContours (im : Gray) : List (List (Nat × Nat)) :=
  (nonzeroPix im).foldl addPix []

/-- Model of `cv2.contourArea`, used only as the sort key for "largest
contour": the component's pixel count (the real call computes the polygon
area of the approximated boundary; no claim depends on which contour wins). -/
def contourArea (c : List (Nat × Nat)) : Nat :=
  c.length

/-- Model of `cv2.boundingRect`: `(x, y, w, h)` of the axis-aligned bounding
box of a pixel set (`x` = least column, `w` = column span). -/
def boundingRect (c : List (Nat × Nat)) : Nat × Nat × Nat × Nat :=
  let xs := c.map Prod.snd
  let ys := c.map Prod.fst
  let x0 := xs.foldl min (xs.headD 0)
  let y0 := ys.foldl min (ys.headD 0)
  let x1 := xs.foldl max (xs.headD 0)
  let y1 := ys.foldl max (ys.headD 0)
  (x0, y0, x1 - x0 + 1, y1 - y0 + 1)

/-- Whether `(i, j)` lies on the 3-pixel-thick outline of the rectangle drawn
by `segment_image`: vertical sides at columns `x` and `x + w`, horizontal
sides at rows `30` and `imgH - 30`, each widened by one pixel on both sides
(thickness 3).  A model of the `cv2.rectangle(…, thickness=3)` raster; no
claim depends on the exact drawn pixel set. -/
def onOutline (x w imgH : Nat) (i j : Nat) : Bool :=
  let x2 := x + w
  let y1 := 30
  let y2 := imgH - 30
  let nearC := (x ≤ j + 1 && j ≤ x + 1) || (x2 ≤ j + 1 && j ≤ x2 + 1)
  let nearR := (y1 ≤ i + 1 && i ≤ y1 + 1) || (y2 ≤ i + 1 && i ≤ y2 + 1)
  let inC := x ≤ j + 1 && j ≤ x2 + 1
  let inR := y1 ≤ i + 1 && i ≤ y2 + 1
  (nearC && inR) || (nearR && inC)

/-- `segment_image` (preprocess.py lines 38–73): build the blurred mask with
`enthicken`, find the contours; IF NONE ARE FOUND RETURN THE INPUT IMAGE
UNCHANGED (still single-channel).  Otherwise take the last contour of the
stable ascending sort by area (the largest, ties to the last-enumerated),
take its bounding rectangle, convert the grayscale input to three channels,
and draw a red (BGR `(0,0,255)`) outline of thickness 3 using the detected
`x` and `x + w` but the fixed vertical bounds `30` and `height - 30`
(`padding * 3`).  The `largest_contour is None` check in the source can
never fire (`sorted(...)[-1]` of a non-empty list) and is not modelled. -/
def segment_image (img : Gray) : Img :=
  match findContours (enthicken img) with
  | [] => .gray img
  | c0 :: cs =>
    let largest := (c0 :: cs).foldl
      (fun a c => if contourArea a ≤ contourArea c then c else a) c0
    let r := boundingRect largest
    .color ⟨img.h, img.w, fun i j =>
      if onOutline r.1 r.2.2.1 img.h i j then (0, 0, 255)
      else (img.pix i j, img.pix i j, img.pix i j)⟩

/-- Model of `cv2.cvtColor(image, COLOR_BGR2GRAY)`: OpenCV's fixed-point luma
`(B·1868 + G·9617 + R·4899 + 2^13) >> 14`. -/
def bgr2gray (im : Rgb) : Gray :=
  ⟨im.h, im.w, fun i j =>
    ((im.pix i j).1 * 1868 + (im.pix i j).2.1 * 9617 + (im.pix i j).2.2 * 4899
      + 8192) / 16384⟩

/-- `process_image` (preprocess.py lines 149–165): convert a three-channel
input to grayscale, then crop → normalize → binarize → denoise →
cover_watermark_remnants → fix_font → segment_image → resize.  No failure is
caught: the first stage error propagates to the caller. -/
def process_image (image : Img) : Except PyErr Img :=
  let gray0 : Gray := match image with
    | .gray im => im
    | .color im => bgr2gray im
  (normalize (crop gray0)).bind fun n =>
  (binarize n).bind fun b =>
  (denoise b).bind fun d =>
  (fix_font (cover_watermark_remnants d)).bind fun f =>
  resize (segment_image f)

/-- A per-image processing result.  The source encodes results as the strings
`"Created {output_path}"` and `"Error processing {input_path}: …"`; they are
modelled as a sum so that success and failure can be told apart (the spec's
"Processing Result"). -/
inductive Result where
  | success (outPath : String)
  | failure (inPath : String) (cause : String)
deriving DecidableEq

/-- Whether a result is a success. -/
def Result.isSuccess : Result → Bool
  | .success _ => true
  | .failure _ _ => false

/-- Whether a result is a failure. -/
def Result.isFailure : Result → Bool
  | .success _ => false
  | .failure _ _ => true

/-- Diagnostic text of a pipeline error (the `str(e)` part of the source's
message; the appended `traceback.format_exc()` is not modelled). -/
def errText : PyErr → String
  | .cvError m => m
  | .zeroDivisionError => "float division by zero"

/-- Model of `os.path.splitext(p)[0]`: the path up to the last dot (the
whole path when it has none).  Modelled for plain file names; `splitext`'s
treatment of dots in directory components is not modelled. -/
def dropExt (p : String) : String :=
  let cs := p.toList
  let extLen := (cs.reverse.takeWhile fun c => c ≠ '.').length
  if extLen = cs.length then p
  else String.mk (cs.take (cs.length - extLen - 1))

/-- The output path of `process_single_image`:
`os.path.splitext(input_path)[0] + "_preprocessed.png"`. -/
def outputPath (input_path : String) : String :=
  dropExt input_path ++ "_preprocessed.png"

/-- `process_single_image` (preprocess.py lines 168–182).  The external codec
is a parameter: `decode` models `cv2.imread` (`none` = unreadable, the code
then raises and the `except` turns it into an error string) and `imwriteOk`
models the boolean result of `cv2.imwrite`.  THE SOURCE NEVER CHECKS
`cv2.imwrite`'s RETURN VALUE: an encode failure signalled the documented way
(returning `False`, e.g. for an unwritable path) still yields the
`"Created …"` success result.  `imwrite` is called and its boolean discarded,
exactly as in the source. -/
def process_single_image (decode : String → Option Gray)
    (imwriteOk : String → Bool) (input_path : String) : Result :=
  match decode input_path with
  | none => .failure input_path ("Could not read image: " ++ input_path)
  | some image =>
    match process_image (.gray image) with
    | .error e => .failure input_path (errText e)
    | .ok _processed =>
      let _ignored := imwriteOk (outputPath input_path)
      .success (outputPath input_path)

/-- `process_multiple_images` (preprocess.py lines 185–197): submit one task
per input path to a `ProcessPoolExecutor` bounded by `batch_size` workers and
report each result as it completes.  The tasks are independent and
side-effect-free in the model, so the collection of produced results equals
the per-path map, irrespective of the worker count and of the completion
order in which `as_completed` yields them; the model returns the results in
submission order and takes `batch_size` as an (unused) parameter, since it
bounds concurrency only. -/
def process_multiple_images (decode : String → Option Gray)
    (imwriteOk : String → Bool) (input_paths : List String)
    (_batch_size : Nat := 4) : List Result :=
  input_paths.map (process_single_image decode imwriteOk)

/-!
### A buffer-level embedding of `process_image`

`process_image` mixes `numpy` views with OpenCV calls, some of which
allocate a fresh output array (every call made without a `dst` argument) and
some of which write into their argument in place (`cv2.rectangle`).  To
settle the frame claim we re-run the pipeline over an explicit heap of
buffers: a buffer id plus window offsets is a `numpy` view, allocation
appends a buffer, `cv2.rectangle` overwrites the buffer its view refers to.
Pixel contents reuse the pure stage definitions above, so the two embeddings
compute the same values.
-/

/-- A heap cell: one raw pixel buffer, grayscale or three-channel. -/
inductive Buf where
  | g (pix : Nat → Nat → Nat)
  | c (pix : Nat → Nat → Nat × Nat × Nat)

/-- The grayscale content of a buffer (first channel when it is color;
that path is never taken by the pipeline). -/
def Buf.grayFn : Buf → (Nat → Nat → Nat)
  | .g f => f
  | .c f => fun i j => (f i j).1

/-- The color content of a buffer (channel-replicated when grayscale;
that path is never taken by the pipeline). -/
def Buf.colorFn : Buf → (Nat → Nat → Nat × Nat × Nat)
  | .c f => f
  | .g f => fun i j => (f i j, f i j, f i j)

/-- The heap: buffer contents by id, and the next free id. -/
structure Heap where
  mem : Nat → Buf
  next : Nat

/-- A `numpy` view: a buffer id, the window offsets, and the window size. -/
structure Ref where
  id : Nat
  rOff : Nat
  cOff : Nat
  h : Nat
  w : Nat

/-- Read a grayscale image through a view. -/
def readG (hp : Heap) (r : Ref) : Gray :=
  ⟨r.h, r.w, fun i j => (hp.mem r.id).grayFn (i + r.rOff) (j + r.cOff)⟩

/-- A stateful pipeline computation: runs on the heap, may fail, always
reports the heap it stopped with. -/
def PSt (α : Type) := Heap → Except PyErr α × Heap

/-- Return a value, heap untouched. -/
def pok {α : Type} (a : α) : PSt α := fun hp => (.ok a, hp)

/-- Sequencing: a failure short-circuits with the heap reached so far. -/
def pbind {α β : Type} (m : PSt α) (k : α → PSt β) : PSt β := fun hp =>
  match m hp with
  | (.error e, hp2) => (.error e, hp2)
  | (.ok a, hp2) => k a hp2

/-- Allocate a fresh grayscale buffer (an OpenCV call without `dst`):
the new buffer gets the next id, and the returned view covers it. -/
def allocG (h w : Nat) (f : Nat → Nat → Nat) : PSt Ref := fun hp =>
  (.ok ⟨hp.next, 0, 0, h, w⟩,
   ⟨Function.update hp.mem hp.next (.g f), hp.next + 1⟩)

/-- Allocate a fresh three-channel buffer. -/
def allocC (h w : Nat) (f : Nat → Nat → Nat × Nat × Nat) : PSt Ref := fun hp =>
  (.ok ⟨hp.next, 0, 0, h, w⟩,
   ⟨Function.update hp.mem hp.next (.c f), hp.next + 1⟩)

/-- The `len(image.shape) == 3` branch of `process_image`: a three-channel
buffer is converted by `cv2.cvtColor` (which allocates); a grayscale buffer
passes through as the same view. -/
def graySt (r : Ref) : PSt Ref := fun hp =>
  match hp.mem r.id with
  | .g _ => (.ok r, hp)
  | .c _ => allocG r.h r.w (bgr2gray ⟨r.h, r.w,
      fun i j => (hp.mem r.id).colorFn (i + r.rOff) (j + r.cOff)⟩).pix hp

/-- `crop` at the buffer level: `image[:-250, 20:-20]` is pure view
arithmetic — SAME buffer id, column offset advanced by 20, window shrunk.
No heap access at all. -/
def cropSt (r : Ref) : Ref :=
  ⟨r.id, r.rOff, r.cOff + 20, r.h - 250, r.w - 40⟩

/-- `normalize` at the buffer level: reads its input (possibly through a
view of the caller's buffer) and, as `cv2.normalize(image, None, …)` is
called with `dst=None`, writes a freshly allocated buffer. -/
def normalizeSt (r : Ref) : PSt Ref := fun hp =>
  let im := readG hp r
  if im.h * im.w = 0 then (.error (.cvError "minMaxIdx: empty input"), hp)
  else allocG im.h im.w (normalizePix im) hp

/-- `binarize` at the buffer level: `cv2.GaussianBlur` and
`cv2.adaptiveThreshold` each allocate a fresh output. -/
def binarizeSt (r : Ref) : PSt Ref := fun hp =>
  let im := readG hp r
  if im.h * im.w = 0 then (.error (.cvError "adaptiveThreshold: empty input"), hp)
  else
    (pbind (allocG im.h im.w (gaussianBlur 5 5 im).pix) fun _bl =>
      allocG im.h im.w (binarizePix (gaussianBlur 5 5 im))) hp

/-- `denoise` at the buffer level: `cv2.medianBlur` and `cv2.morphologyEx`
each allocate a fresh output. -/
def denoiseSt (r : Ref) : PSt Ref := fun hp =>
  let im := readG hp r
  if im.h * im.w = 0 then (.error (.cvError "medianBlur: empty input"), hp)
  else
    (pbind (allocG im.h im.w (medianBlur 5 im).pix) fun _md =>
      allocG im.h im.w (morphClose 5 (medianBlur 5 im)).pix) hp

/-- `cover_watermark_remnants` at the buffer level: `cv2.rectangle` draws IN
PLACE — the buffer the view refers to is overwritten (through the view's
offsets) and the same view is returned, exactly as the source returns
`cv2.rectangle(image, …)`. -/
def coverSt (r : Ref) : PSt Ref := fun hp =>
  (.ok r,
   ⟨Function.update hp.mem r.id
      (.g fun bi bj =>
        if 4375 + r.rOff ≤ bi ∧ bi ≤ 4433 + r.rOff ∧ r.cOff ≤ bj ∧ bj ≤ 300 + r.cOff
        then 255 else (hp.mem r.id).grayFn bi bj),
    hp.next⟩)

/-- `fix_font` at the buffer level: its five OpenCV calls each allocate. -/
def fixFontSt (r : Ref) : PSt Ref := fun hp =>
  let im := readG hp r
  if im.h * im.w = 0 then (.error (.cvError "erode: empty input"), hp)
  else
    (pbind (allocG im.h im.w (bitwiseNot im).pix) fun _a =>
     pbind (allocG im.h im.w (erode 3 (bitwiseNot im)).pix) fun _b =>
     pbind (allocG im.h im.w (dilate 3 (erode 3 (bitwiseNot im))).pix) fun _c =>
     pbind (allocG im.h im.w (morphClose 7 (dilate 3 (erode 3 (bitwiseNot im)))).pix) fun _d =>
      allocG im.h im.w
        (bitwiseNot (morphClose 7 (dilate 3 (erode 3 (bitwiseNot im))))).pix) hp

/-- `enthicken` at the buffer level: its five OpenCV calls each allocate;
the final view holds the Otsu mask. -/
def enthickenSt (r : Ref) : PSt Ref := fun hp =>
  let im := readG hp r
  (pbind (allocG im.h im.w (canny im 175).pix) fun _a =>
   pbind (allocG im.h im.w (dilate 7 (canny im 175)).pix) fun _b =>
   pbind (allocG im.h im.w (morphClose 5 (dilate 7 (canny im 175))).pix) fun _c =>
   pbind (allocG im.h im.w
     (gaussianBlur 19 233 (morphClose 5 (dilate 7 (canny im 175)))).pix) fun _d =>
    allocG im.h im.w (enthicken im).pix) hp

/-- The in-place `cv2.rectangle(result, …, (0,0,255), 3)` of `segment_image`:
overwrites the buffer of the freshly converted color view. -/
def drawRectSt (x w imgH : Nat) (r : Ref) : PSt Ref := fun hp =>
  (.ok r,
   ⟨Function.update hp.mem r.id
      (.c fun bi bj =>
        if onOutline x w imgH (bi - r.rOff) (bj - r.cOff)
        then (0, 0, 255) else (hp.mem r.id).colorFn bi bj),
    hp.next⟩)

/-- `segment_image` at the buffer level: run `enthicken` (five allocations),
take the contours of the mask; with no contours the SAME view is returned
(the `return img` fallback); otherwise `cv2.cvtColor` allocates the
three-channel copy and `cv2.rectangle` writes the outline into it in place. -/
def segmentSt (r : Ref) : PSt Ref := fun hp =>
  let im := readG hp r
  (pbind (enthickenSt r) fun _mask =>
    match findContours (enthicken im) with
    | [] => pok r
    | c0 :: cs =>
      let largest := (c0 :: cs).foldl
        (fun a c => if contourArea a ≤ contourArea c then c else a) c0
      let rect := boundingRect largest
      pbind (allocC im.h im.w fun i j => (im.pix i j, im.pix i j, im.pix i j))
        (drawRectSt rect.1 rect.2.2.1 im.h)) hp

/-- `resize` at the buffer level: after the guards, `cv2.resize` allocates
an output of the same channel count as its input buffer. -/
def resizeSt (r : Ref) : PSt Ref := fun hp =>
  if r.h = 0 then (.error .zeroDivisionError, hp)
  else if r.w * 1568 / r.h = 0 then (.error (.cvError "resize: empty dsize"), hp)
  else
    match hp.mem r.id with
    | .g _ =>
      allocG 1568 (r.w * 1568 / r.h)
        (fun i j => (readG hp r).pix (i * r.h / 1568) (j * r.w / (r.w * 1568 / r.h))) hp
    | .c _ =>
      allocC 1568 (r.w * 1568 / r.h)
        (fun i j => (hp.mem r.id).colorFn
          (i * r.h / 1568 + r.rOff) (j * r.w / (r.w * 1568 / r.h) + r.cOff)) hp

/-- The stage chain of `process_image` after the channel check. -/
def processChainSt (rg : Ref) : PSt Ref :=
  pbind (normalizeSt (cropSt rg)) fun rn =>
  pbind (binarizeSt rn) fun rb =>
  pbind (denoiseSt rb) fun rd =>
  pbind (coverSt rd) fun rcv =>
  pbind (fixFontSt rcv) fun rf =>
  pbind (segmentSt rf) resizeSt

/-- `process_image` at the buffer level. -/
def process_image_st (r0 : Ref) : PSt Ref :=
  pbind (graySt r0) processChainSt

/-- Width of a successful pipeline result (sentinel 4040404 on error);
a closed-form observer for stating concrete counterexamples. -/
def widthOfResult : Except PyErr Img → Nat
  | .ok im => im.width
  | .error _ => 4040404

/-- One pixel of a successful grayscale stage result (sentinel 4040404 on
error). -/
def pixOfResult (e : Except PyErr Gray) (i j : Nat) : Nat :=
  match e with
  | .ok im => im.pix i j
  | .error _ => 4040404

/-- The frame property of a buffer-level computation: running it on any heap
whose allocation counter has moved past buffer 0 leaves buffer 0 untouched,
keeps the counter past 0, and only hands out views of allocated (nonzero)
buffers. -/
def PresA (m : PSt Ref) : Prop :=
  ∀ hp : Heap, 1 ≤ hp.next →
    ((m hp).2.mem 0 = hp.mem 0) ∧ 1 ≤ (m hp).2.next ∧
    (∀ r, (m hp).1 = .ok r → 1 ≤ r.id)

/-!
### Constant-image propagation

Every stage of the pipeline maps a constant image to a constant image; these
lemmas let the concrete runs the claims need (uniform scans) be evaluated
without unfolding the quadratic neighborhood sums pixel by pixel.
-/

/-- Every pixel of the image equals `c` (as a total function). -/
def ConstPix (im : Gray) (c : Nat) : Prop :=
  ∀ i j, im.pix i j = c

@[simp] theorem crop_h (im : Gray) : (crop im).h = im.h - 250 := by
  simp only [crop]

@[simp] theorem crop_w (im : Gray) : (crop im).w = im.w - 40 := by
  simp only [crop]

@[simp] theorem gaussianBlur_h (kw kh : Nat) (im : Gray) :
    (gaussianBlur kw kh im).h = im.h := by simp only [gaussianBlur]

@[simp] theorem gaussianBlur_w (kw kh : Nat) (im : Gray) :
    (gaussianBlur kw kh im).w = im.w := by simp only [gaussianBlur]

@[simp] theorem medianBlur_h (k : Nat) (im : Gray) :
    (medianBlur k im).h = im.h := by simp only [medianBlur]

@[simp] theorem medianBlur_w (k : Nat) (im : Gray) :
    (medianBlur k im).w = im.w := by simp only [medianBlur]

@[simp] theorem dilate_h (k : Nat) (im : Gray) :
    (dilate k im).h = im.h := by simp only [dilate]

@[simp] theorem dilate_w (k : Nat) (im : Gray) :
    (dilate k im).w = im.w := by simp only [dilate]

@[simp] theorem erode_h (k : Nat) (im : Gray) :
    (erode k im).h = im.h := by simp only [erode]

@[simp] theorem erode_w (k : Nat) (im : Gray) :
    (erode k im).w = im.w := by simp only [erode]

@[simp] theorem morphClose_h (k : Nat) (im : Gray) :
    (morphClose k im).h = im.h := by simp only [morphClose, erode_h, dilate_h]

@[simp] theorem morphClose_w (k : Nat) (im : Gray) :
    (morphClose k im).w = im.w := by simp only [morphClose, erode_w, dilate_w]

@[simp] theorem bitwiseNot_h (im : Gray) : (bitwiseNot im).h = im.h := by
  simp only [bitwiseNot]

@[simp] theorem bitwiseNot_w (im : Gray) : (bitwiseNot im).w = im.w := by
  simp only [bitwiseNot]

@[simp] theorem cover_h (im : Gray) : (cover_watermark_remnants im).h = im.h := by
  simp only [cover_watermark_remnants]

@[simp] theorem cover_w (im : Gray) : (cover_watermark_remnants im).w = im.w := by
  simp only [cover_watermark_remnants]

@[simp] theorem canny_h (im : Gray) (hi : Nat) : (canny im hi).h = im.h := by
  simp only [canny]

@[simp] theorem canny_w (im : Gray) (hi : Nat) : (canny im hi).w = im.w := by
  simp only [canny]

@[simp] theorem thresholdOtsu_h (im : Gray) : (thresholdOtsu im).h = im.h := by
  simp only [thresholdOtsu]

@[simp] theorem thresholdOtsu_w (im : Gray) : (thresholdOtsu im).w = im.w := by
  simp only [thresholdOtsu]

@[simp] theorem enthicken_h (im : Gray) : (enthicken im).h = im.h := by
  simp only [enthicken, thresholdOtsu_h, gaussianBlur_h, morphClose_h, dilate_h,
    canny_h]

@[simp] theorem enthicken_w (im : Gray) : (enthicken im).w = im.w := by
  simp only [enthicken, thresholdOtsu_w, gaussianBlur_w, morphClose_w, dilate_w,
    canny_w]

theorem getCl_const {im : Gray} {c : Nat} (hc : ConstPix im c) (i j : Int) :
    getCl im i j = c :=
  hc _ _

theorem gray_eq_const {im : Gray} {c : Nat} (hc : ConstPix im c) :
    im = ⟨im.h, im.w, fun _ _ => c⟩ := by
  cases im with
  | mk h w p => exact congrArg (Gray.mk h w) (funext fun i => funext fun j => hc i j)

theorem gray_eq_mk {im : Gray} {c H W : Nat} (hc : ConstPix im c)
    (hh : im.h = H) (hw : im.w = W) : im = ⟨H, W, fun _ _ => c⟩ := by
  subst hh
  subst hw
  exact gray_eq_const hc

theorem foldl_min_const {c : Nat} :
    ∀ l : List Nat, (∀ x ∈ l, x = c) → l.foldl min c = c := by
  intro l
  induction l with
  | nil => intro _; rfl
  | cons x xs ih =>
    intro h
    have hx : x = c := h x (by simp)
    rw [List.foldl_cons, hx, min_self]
    exact ih fun y hy => h y (by simp [hy])

theorem foldl_max_const {c : Nat} :
    ∀ l : List Nat, (∀ x ∈ l, x = c) → l.foldl max c = c := by
  intro l
  induction l with
  | nil => intro _; rfl
  | cons x xs ih =>
    intro h
    have hx : x = c := h x (by simp)
    rw [List.foldl_cons, hx, max_self]
    exact ih fun y hy => h y (by simp [hy])

theorem getD_const {c : Nat} :
    ∀ (l : List Nat) (n : Nat), (∀ x ∈ l, x = c) → n < l.length → l.getD n 0 = c := by
  intro l
  induction l with
  | nil => intro n _ hn; simp at hn
  | cons x xs ih =>
    intro n h hn
    cases n with
    | zero => simpa using h x (by simp)
    | succ m =>
      simp only [List.getD_cons_succ]
      exact ih m (fun y hy => h y (by simp [hy])) (by simpa using hn)

theorem mem_insSorted {x a : Nat} :
    ∀ {l : List Nat}, a ∈ insSorted x l → a = x ∨ a ∈ l := by
  intro l
  induction l with
  | nil => intro h; simp [insSorted] at h; exact Or.inl h
  | cons y ys ih =>
    intro h
    by_cases hxy : x ≤ y
    · simp only [insSorted, if_pos hxy] at h
      rcases List.mem_cons.mp h with h1 | h2
      · exact Or.inl h1
      · exact Or.inr h2
    · simp only [insSorted, if_neg hxy] at h
      rcases List.mem_cons.mp h with h1 | h2
      · exact Or.inr (by simp [h1])
      · rcases ih h2 with h3 | h3
        · exact Or.inl h3
        · exact Or.inr (by simp [h3])

theorem length_insSorted (x : Nat) :
    ∀ l : List Nat, (insSorted x l).length = l.length + 1 := by
  intro l
  induction l with
  | nil => rfl
  | cons y ys ih =>
    by_cases hxy : x ≤ y
    · simp [insSorted, if_pos hxy]
    · simp [insSorted, if_neg hxy, ih]

theorem mem_sortNat {a : Nat} :
    ∀ {l : List Nat}, a ∈ sortNat l → a ∈ l := by
  intro l
  induction l with
  | nil => intro h; simp [sortNat] at h
  | cons x xs ih =>
    intro h
    have h2 : a ∈ insSorted x (sortNat xs) := h
    rcases mem_insSorted h2 with h3 | h3
    · simp [h3]
    · exact List.mem_cons_of_mem _ (ih h3)

theorem length_sortNat :
    ∀ l : List Nat, (sortNat l).length = l.length := by
  intro l
  induction l with
  | nil => rfl
  | cons x xs ih =>
    have : sortNat (x :: xs) = insSorted x (sortNat xs) := rfl
    rw [this, length_insSorted, ih, List.length_cons]

theorem sum_map_const_nat {α : Type} (l : List α) (c : Nat) :
    (l.map fun _ => c).sum = l.length * c := by
  induction l with
  | nil => simp
  | cons x xs ih => simp [ih, Nat.succ_mul]; ring

theorem length_offs (k : Nat) : (offs k).length = k := by
  unfold offs
  rw [List.length_map, List.length_range]

theorem length_gaussW {k : Nat} (hk : 0 < k) : (gaussW k).length = k := by
  have : (gaussW k).length = (k - 1) + 1 := by
    simp [gaussW, binomRow, List.length_scanl]
  omega

theorem taps_snd {k : Nat} (hk : 0 < k) : (taps k).map (fun t => t.2) = gaussW k := by
  have h : (gaussW k).length ≤ (offs k).length := by
    rw [length_gaussW hk, length_offs]
  exact List.map_snd_zip _ _ h

theorem gaussW_sum_pos (k : Nat) : 0 < (gaussW k).sum := by
  unfold gaussW binomRow
  cases h : List.range (k - 1) with
  | nil => simp [List.scanl]
  | cons a l =>
    rw [List.scanl]
    simp only [List.sum_cons]
    omega

theorem roundDiv_mul_self (S c : Nat) (hS : 0 < S) : roundDiv (S * c) S = c := by
  unfold roundDiv
  have h1 : 2 * (S * c) + S = S * (2 * c + 1) := by ring
  have h2 : 2 * S = S * 2 := by ring
  rw [h1, h2, Nat.mul_div_mul_left _ _ hS]
  omega

theorem gBlurPix_const {im : Gray} {c : Nat} (hc : ConstPix im c)
    {kh kw : Nat} (hkh : 0 < kh) (hkw : 0 < kw) (i j : Nat) :
    gBlurPix kh kw im i j = c := by
  unfold gBlurPix
  have hin : ∀ di : Int × Nat,
      ((taps kw).map fun dj =>
        di.2 * dj.2 * getCl im ((i : Int) + di.1) ((j : Int) + dj.1)).sum
      = di.2 * (gaussW kw).sum * c := by
    intro di
    have hmap : ((taps kw).map fun dj =>
        di.2 * dj.2 * getCl im ((i : Int) + di.1) ((j : Int) + dj.1))
        = (taps kw).map fun dj => di.2 * dj.2 * c :=
      List.map_congr_left fun a _ => by rw [getCl_const hc]
    rw [hmap, List.sum_map_mul_right, List.sum_map_mul_left, taps_snd hkw]
  have houter : ((taps kh).map fun di =>
      ((taps kw).map fun dj =>
        di.2 * dj.2 * getCl im ((i : Int) + di.1) ((j : Int) + dj.1)).sum)
      = (taps kh).map fun di => di.2 * (gaussW kw).sum * c :=
    List.map_congr_left fun di _ => hin di
  rw [houter, List.sum_map_mul_right, List.sum_map_mul_right, taps_snd hkh]
  exact roundDiv_mul_self _ _
    (Nat.mul_pos (gaussW_sum_pos kh) (gaussW_sum_pos kw))

theorem gaussianBlur_const {im : Gray} {c : Nat} (hc : ConstPix im c)
    {kw kh : Nat} (hkw : 0 < kw) (hkh : 0 < kh) :
    ConstPix (gaussianBlur kw kh im) c :=
  fun i j => gBlurPix_const hc hkh hkw i j

theorem mem_regionList_const {im : Gray} {c : Nat} (hc : ConstPix im c) :
    ∀ x ∈ regionList im, x = c := by
  intro x hx
  simp only [regionList, List.mem_flatMap, List.mem_map] at hx
  obtain ⟨i, _, j, _, rfl⟩ := hx
  exact hc i j

theorem minPix_const {im : Gray} {c : Nat} (hc : ConstPix im c) : minPix im = c := by
  unfold minPix
  rw [hc 0 0]
  exact foldl_min_const _ (mem_regionList_const hc)

theorem maxPix_const {im : Gray} {c : Nat} (hc : ConstPix im c) : maxPix im = c := by
  unfold maxPix
  rw [hc 0 0]
  exact foldl_max_const _ (mem_regionList_const hc)

theorem normalize_const {im : Gray} {c : Nat} (hc : ConstPix im c)
    (hpos : ¬ im.h * im.w = 0) :
    normalize im = .ok ⟨im.h, im.w, fun _ _ => 0⟩ := by
  unfold normalize
  rw [if_neg hpos]
  refine congrArg Except.ok (congrArg (Gray.mk im.h im.w) ?_)
  funext i j
  unfold normalizePix
  rw [minPix_const hc, maxPix_const hc, if_pos (le_refl c)]

theorem binarize_const {im : Gray} {c : Nat} (hc : ConstPix im c)
    (hpos : ¬ im.h * im.w = 0) :
    binarize im = .ok ⟨im.h, im.w, fun _ _ => 255⟩ := by
  unfold binarize
  rw [if_neg hpos]
  refine congrArg Except.ok (congrArg (Gray.mk im.h im.w) ?_)
  funext i j
  have hbl : ConstPix (gaussianBlur 5 5 im) c :=
    gaussianBlur_const hc (by norm_num) (by norm_num)
  unfold binarizePix adaptiveMean11
  rw [gBlurPix_const hbl (by norm_num) (by norm_num), hbl i j, if_pos (by omega)]

theorem mem_nbhd_const {im : Gray} {c : Nat} (hc : ConstPix im c)
    {k : Nat} {i j : Nat} : ∀ x ∈ nbhd k im i j, x = c := by
  intro x hx
  simp only [nbhd, List.mem_flatMap, List.mem_map] at hx
  obtain ⟨di, _, dj, _, rfl⟩ := hx
  exact getCl_const hc _ _

theorem medianBlur_const {im : Gray} {c : Nat} (hc : ConstPix im c)
    {k : Nat} (hk : 0 < k) : ConstPix (medianBlur k im) c := by
  intro i j
  show (sortNat (nbhd k im i j)).getD (k * k / 2) 0 = c
  apply getD_const
  · intro x hx
    exact mem_nbhd_const hc _ (mem_sortNat hx)
  · rw [length_sortNat]
    have hlen : (nbhd k im i j).length = k * k := by
      unfold nbhd
      rw [List.length_flatMap]
      have hfn : (List.length ∘ fun di : Int =>
          (offs k).map fun dj => getCl im ((i : Int) + di) ((j : Int) + dj))
          = fun _ : Int => k :=
        funext fun a => by
          simp [Function.comp, List.length_map, length_offs]
      rw [hfn, sum_map_const_nat, length_offs]
    rw [hlen]
    have : 0 < k * k := Nat.mul_pos hk hk
    omega

theorem dilate_const {im : Gray} {c : Nat} (hc : ConstPix im c)
    {k : Nat} : ConstPix (dilate k im) c := by
  intro i j
  show (nbhd k im i j).foldl max (im.pix i j) = c
  rw [hc i j]
  exact foldl_max_const _ (mem_nbhd_const hc)

theorem erode_const {im : Gray} {c : Nat} (hc : ConstPix im c)
    {k : Nat} : ConstPix (erode k im) c := by
  intro i j
  show (nbhd k im i j).foldl min (im.pix i j) = c
  rw [hc i j]
  exact foldl_min_const _ (mem_nbhd_const hc)

theorem morphClose_const {im : Gray} {c : Nat} (hc : ConstPix im c)
    {k : Nat} : ConstPix (morphClose k im) c :=
  erode_const (dilate_const hc)

theorem denoise_const {im : Gray} {c : Nat} (hc : ConstPix im c)
    (hpos : ¬ im.h * im.w = 0) :
    denoise im = .ok ⟨im.h, im.w, fun _ _ => c⟩ := by
  unfold denoise
  rw [if_neg hpos]
  refine congrArg Except.ok ?_
  have hcd : ConstPix (morphClose 5 (medianBlur 5 im)) c :=
    morphClose_const (medianBlur_const hc (by norm_num))
  exact gray_eq_mk hcd (by simp) (by simp)

theorem cover_const_255 {im : Gray} (hc : ConstPix im 255) :
    cover_watermark_remnants im = ⟨im.h, im.w, fun _ _ => 255⟩ := by
  unfold cover_watermark_remnants
  refine congrArg (Gray.mk im.h im.w) ?_
  funext i j
  rw [hc i j]
  split <;> rfl

theorem bitwiseNot_const {im : Gray} {c : Nat} (hc : ConstPix im c) :
    ConstPix (bitwiseNot im) (255 - c) := by
  intro i j
  show 255 - im.pix i j = 255 - c
  rw [hc i j]

theorem fix_font_const_255 {im : Gray} (hc : ConstPix im 255)
    (hpos : ¬ im.h * im.w = 0) :
    fix_font im = .ok ⟨im.h, im.w, fun _ _ => 255⟩ := by
  unfold fix_font
  rw [if_neg hpos]
  refine congrArg Except.ok ?_
  have h0 : ConstPix (bitwiseNot im) 0 := by
    have := bitwiseNot_const hc
    simpa using this
  have hchain : ConstPix
      (bitwiseNot (morphClose 7 (dilate 3 (erode 3 (bitwiseNot im))))) 255 := by
    have h1 : ConstPix (morphClose 7 (dilate 3 (erode 3 (bitwiseNot im)))) 0 :=
      morphClose_const (dilate_const (erode_const h0))
    have := bitwiseNot_const h1
    simpa using this
  exact gray_eq_mk hchain (by simp) (by simp)

theorem gradX_const {im : Gray} {c : Nat} (hc : ConstPix im c) (i j : Nat) :
    gradX im i j = 0 := by
  unfold gradX sobelX
  simp [getCl_const hc]

theorem gradY_const {im : Gray} {c : Nat} (hc : ConstPix im c) (i j : Nat) :
    gradY im i j = 0 := by
  unfold gradY sobelY
  simp [getCl_const hc]

theorem canny_const {im : Gray} {c : Nat} (hc : ConstPix im c) {hi : Nat} :
    ConstPix (canny im hi) 0 := by
  intro i j
  show (if (hi : Int) < (gradX im i j).natAbs + (gradY im i j).natAbs
    then 255 else 0) = 0
  rw [gradX_const hc, gradY_const hc]
  simp

theorem thresholdOtsu_const_zero {im : Gray} (hc : ConstPix im 0) :
    ConstPix (thresholdOtsu im) 0 := by
  intro i j
  show (if otsuThreshold im < im.pix i j then 255 else 0) = 0
  rw [hc i j]
  simp

theorem enthicken_const {im : Gray} {c : Nat} (hc : ConstPix im c) :
    ConstPix (enthicken im) 0 := by
  unfold enthicken
  exact thresholdOtsu_const_zero
    (gaussianBlur_const (morphClose_const (dilate_const (canny_const hc)))
      (by norm_num) (by norm_num))

theorem nonzeroPix_const_zero {im : Gray} (hc : ConstPix im 0) :
    nonzeroPix im = [] := by
  unfold nonzeroPix
  have hfil : ∀ i : Nat,
      ((List.range im.w).filter fun j => im.pix i j ≠ 0) = [] := by
    intro i
    apply List.filter_eq_nil_iff.mpr
    intro j _
    simp [hc i j]
  refine List.flatMap_eq_nil_iff.mpr ?_
  intro i _
  rw [hfil i]
  rfl

theorem findContours_const_zero {im : Gray} (hc : ConstPix im 0) :
    findContours im = [] := by
  unfold findContours
  rw [nonzeroPix_const_zero hc]
  rfl

theorem segment_image_const {im : Gray} {c : Nat} (hc : ConstPix im c) :
    segment_image im = .gray im := by
  unfold segment_image
  rw [findContours_const_zero (enthicken_const hc)]

/-!
### Stage reduction lemmas (dimension level)
-/

theorem except_bind_ok {ε α β : Type} (a : α) (f : α → Except ε β) :
    (Except.ok a : Except ε α).bind f = f a := rfl

theorem except_bind_error {ε α β : Type} (e : ε) (f : α → Except ε β) :
    (Except.error e : Except ε α).bind f = .error e := rfl

theorem normalize_ok {im : Gray} (h : ¬ im.h * im.w = 0) :
    normalize im = .ok ⟨im.h, im.w, normalizePix im⟩ := by
  unfold normalize
  rw [if_neg h]

theorem binarize_ok {im : Gray} (h : ¬ im.h * im.w = 0) :
    binarize im = .ok ⟨im.h, im.w, binarizePix (gaussianBlur 5 5 im)⟩ := by
  unfold binarize
  rw [if_neg h]

theorem denoise_ok {im : Gray} (h : ¬ im.h * im.w = 0) :
    denoise im = .ok (morphClose 5 (medianBlur 5 im)) := by
  unfold denoise
  rw [if_neg h]

theorem fix_font_ok {im : Gray} (h : ¬ im.h * im.w = 0) :
    fix_font im
      = .ok (bitwiseNot (morphClose 7 (dilate 3 (erode 3 (bitwiseNot im))))) := by
  unfold fix_font
  rw [if_neg h]

theorem segment_image_height (im : Gray) : (segment_image im).height = im.h := by
  unfold segment_image
  split
  · rfl
  · simp [Img.height]

theorem segment_image_width (im : Gray) : (segment_image im).width = im.w := by
  unfold segment_image
  split
  · rfl
  · simp [Img.width]

theorem resize_ok {img : Img} (hh : ¬ img.height = 0)
    (hw : img.height ≤ img.width * 1568) :
    ∃ out, resize img = .ok out ∧ out.height = 1568 ∧
      out.width = img.width * 1568 / img.height := by
  have hpos : 0 < img.height := Nat.pos_of_ne_zero hh
  have hnw : ¬ img.width * 1568 / img.height = 0 := by
    have h1 : 1 ≤ img.width * 1568 / img.height := (Nat.one_le_div_iff hpos).mpr hw
    omega
  cases img with
  | gray im =>
    have hh' : ¬ im.h = 0 := hh
    have hnw' : ¬ im.w * 1568 / im.h = 0 := hnw
    refine ⟨.gray ⟨1568, im.w * 1568 / im.h,
      fun i j => im.pix (i * im.h / 1568) (j * im.w / (im.w * 1568 / im.h))⟩,
      ?_, rfl, rfl⟩
    unfold resize resizeGray
    dsimp only
    rw [if_neg hh']
    rw [if_neg hnw']
    rfl
  | color im =>
    have hh' : ¬ im.h = 0 := hh
    have hnw' : ¬ im.w * 1568 / im.h = 0 := hnw
    refine ⟨.color ⟨1568, im.w * 1568 / im.h,
      fun i j => im.pix (i * im.h / 1568) (j * im.w / (im.w * 1568 / im.h))⟩,
      ?_, rfl, rfl⟩
    unfold resize
    dsimp only
    rw [if_neg hh']
    rw [if_neg hnw']

/-- The pipeline succeeds, at the dimension level, on any grayscale input
tall and wide enough to survive `crop` and whose cropped aspect ratio keeps
the truncated resize width positive; the output height is the fixed 1568
and the width is the truncated `(w - 40) * 1568 / (h - 250)`. -/
theorem process_image_ok (im : Gray) (h1 : 250 < im.h) (h2 : 40 < im.w)
    (h3 : im.h - 250 ≤ (im.w - 40) * 1568) :
    ∃ out, process_image (.gray im) = .ok out ∧ out.height = 1568 ∧
      out.width = (im.w - 40) * 1568 / (im.h - 250) := by
  have hcar : ¬ (crop im).h * (crop im).w = 0 := by
    simp only [crop_h, crop_w]
    have hpos : 0 < (im.h - 250) * (im.w - 40) :=
      Nat.mul_pos (by omega) (by omega)
    omega
  have hn := normalize_ok hcar
  have hnar : ¬ ((⟨(crop im).h, (crop im).w, normalizePix (crop im)⟩ : Gray)).h
      * ((⟨(crop im).h, (crop im).w, normalizePix (crop im)⟩ : Gray)).w = 0 := hcar
  have hb := binarize_ok hnar
  set n : Gray := ⟨(crop im).h, (crop im).w, normalizePix (crop im)⟩ with hn_def
  set b : Gray := ⟨n.h, n.w, binarizePix (gaussianBlur 5 5 n)⟩ with hb_def
  have hbar : ¬ b.h * b.w = 0 := hcar
  have hd := denoise_ok hbar
  set d : Gray := morphClose 5 (medianBlur 5 b) with hd_def
  set cov : Gray := cover_watermark_remnants d with hcov_def
  have hcovh : cov.h = (crop im).h := by
    rw [hcov_def, cover_h, hd_def, morphClose_h, medianBlur_h]
  have hcovw : cov.w = (crop im).w := by
    rw [hcov_def, cover_w, hd_def, morphClose_w, medianBlur_w]
  have hcovar : ¬ cov.h * cov.w = 0 := by
    rw [hcovh, hcovw]
    exact hcar
  have hf := fix_font_ok hcovar
  set f : Gray := bitwiseNot (morphClose 7 (dilate 3 (erode 3 (bitwiseNot cov))))
    with hf_def
  have hfh : f.h = im.h - 250 := by
    rw [hf_def, bitwiseNot_h, morphClose_h, dilate_h, erode_h, bitwiseNot_h,
      hcovh, crop_h]
  have hfw : f.w = im.w - 40 := by
    rw [hf_def, bitwiseNot_w, morphClose_w, dilate_w, erode_w, bitwiseNot_w,
      hcovw, crop_w]
  have hrh : ¬ (segment_image f).height = 0 := by
    rw [segment_image_height, hfh]
    omega
  have hrw : (segment_image f).height ≤ (segment_image f).width * 1568 := by
    rw [segment_image_height, segment_image_width, hfh, hfw]
    exact h3
  obtain ⟨out, hre, hout_h, hout_w⟩ := resize_ok hrh hrw
  refine ⟨out, ?_, hout_h, ?_⟩
  · show process_image (.gray im) = .ok out
    unfold process_image
    dsimp only
    rw [hn, except_bind_ok, hb, except_bind_ok, hd, except_bind_ok, hf,
      except_bind_ok]
    exact hre
  · rw [hout_w, segment_image_width, segment_image_height, hfh, hfw]

theorem rdivEven_zero (b : Nat) : rdivEven 0 b = 0 := by
  unfold rdivEven
  simp

theorem rdivEven_mul255 (a : Nat) (ha : 0 < a) : rdivEven (a * 255) a = 255 := by
  unfold rdivEven
  have hq : a * 255 / a = 255 := Nat.mul_div_cancel_left 255 ha
  have hr : a * 255 % a = 0 := Nat.mul_mod_right a 255
  rw [hq, hr]
  simp [ha]

/-!
### The claims
-/

/-- C3 (confirmed).  For every image of height H > 250 and width W > 40, the
crop stage returns an image of height exactly H − 250 and width exactly
W − 40, whose pixels are those of the input with the bottom 250 rows and 20
columns on each of the left and right edges removed: output pixel `(i, j)`
(with `i` ranging over the surviving top rows) is input pixel `(i, j + 20)`. -/
theorem claim3_crop_exact (im : Gray) (hH : 250 < im.h) (hW : 40 < im.w) :
    (crop im).h = im.h - 250 ∧ (crop im).w = im.w - 40 ∧
    ∀ i j, i < im.h - 250 → j < im.w - 40 →
      (crop im).pix i j = im.pix i (j + 20) := by
  refine ⟨crop_h im, crop_w im, ?_⟩
  intro i j _ _
  simp only [crop]

/-- Witness for C3 at a concrete 300 × 100 non-constant image. -/
theorem claim3_witness :
    (crop ⟨300, 100, fun i j => 31 * i + j⟩).h = 300 - 250 ∧
    (crop ⟨300, 100, fun i j => 31 * i + j⟩).w = 100 - 40 ∧
    ∀ i j, i < 300 - 250 → j < 100 - 40 →
      (crop ⟨300, 100, fun i j => 31 * i + j⟩).pix i j = 31 * i + (j + 20) :=
  claim3_crop_exact ⟨300, 100, fun i j => 31 * i + j⟩ (by norm_num) (by norm_num)

/-- C2 counterexample.  The claim says the resize stage rounds the output
width TO NEAREST: for a 3 × 1 image that would be `round(1 × 1568 / 3) =
round(522.67) = 523`; the code computes `int(1 * (1568 / 3.0)) = 522`
(truncation). -/
theorem claim2_cex :
    widthOfResult (resize (.gray ⟨3, 1, fun _ _ => 9⟩)) = 522 ∧
    specResizeWidth 1 3 = 523 ∧ (522 : Nat) ≠ 523 := by
  refine ⟨rfl, ?_, by norm_num⟩
  norm_num [specResizeWidth, round_eq]

/-- C2 (corrected).  The resize stage TRUNCATES: whenever the truncated
width `⌊w × 1568 / h⌋` is positive, the output has height exactly 1568 and
width exactly `⌊w × 1568 / h⌋` (floor, not round-to-nearest; `int()` in
Python truncates). -/
theorem claim2_resize_truncates (im : Gray) (hh : ¬ im.h = 0)
    (hw : im.h ≤ im.w * 1568) :
    ∃ out, resize (.gray im) = .ok out ∧ out.height = 1568 ∧
      out.width = im.w * 1568 / im.h :=
  @resize_ok (.gray im) hh hw

/-- Witness for C2 at a concrete 100 × 50 image: width 50 × 1568 / 100 = 784. -/
theorem claim2_witness :
    ∃ out, resize (.gray ⟨100, 50, fun _ _ => 7⟩) = .ok out ∧
      out.height = 1568 ∧ out.width = 784 :=
  claim2_resize_truncates ⟨100, 50, fun _ _ => 7⟩ (by norm_num) (by norm_num)

/-- C6 counterexample.  The claim says a constant-valued image is returned
unchanged (identity).  OpenCV's `normalize` computes `scale = 0, shift = 0`
in the degenerate case, so a constant image of value 7 comes back all ZEROS,
not unchanged. -/
theorem claim6_cex :
    normalize ⟨1, 1, fun _ _ => 7⟩ = .ok ⟨1, 1, fun _ _ => 0⟩ ∧
    normalize ⟨1, 1, fun _ _ => 7⟩ ≠ .ok ⟨1, 1, fun _ _ => 7⟩ ∧
    pixOfResult (normalize ⟨1, 1, fun _ _ => 7⟩) 0 0 = 0 ∧
    (⟨1, 1, fun _ _ => 7⟩ : Gray).pix 0 0 = 7 ∧ (0 : Nat) ≠ 7 := by
  have h := @normalize_const ⟨1, 1, fun _ _ => 7⟩ 7
    (fun _ _ => rfl) (by norm_num)
  have hne : normalize ⟨1, 1, fun _ _ => 7⟩ ≠ .ok ⟨1, 1, fun _ _ => 7⟩ := by
    intro hEq
    rw [h] at hEq
    injection hEq with h2
    injection h2 with _ _ h3
    have h4 := congrFun (congrFun h3 0) 0
    simp at h4
  exact ⟨h, hne, by rw [h]; rfl, rfl, by norm_num⟩

/-- C6 (corrected).  For every non-empty grayscale image, `normalize`
rescales so a pixel at the observed minimum maps to 0 and a pixel at the
observed maximum maps to 255; but for a constant-valued image the stage
returns the ALL-ZERO image of the same dimensions (OpenCV's `scale = 0,
shift = 0` degenerate case), which is the identity only when the constant is
already 0, not in general as the claim states. -/
theorem claim6_normalize (im : Gray) (hpos : ¬ im.h * im.w = 0) :
    ∃ nim, normalize im = .ok nim ∧ nim.h = im.h ∧ nim.w = im.w ∧
      (∀ i j, im.pix i j = minPix im → nim.pix i j = 0) ∧
      (∀ i j, im.pix i j = maxPix im → minPix im < maxPix im →
        nim.pix i j = 255) ∧
      (minPix im = maxPix im → ∀ i j, nim.pix i j = 0) := by
  refine ⟨⟨im.h, im.w, normalizePix im⟩, normalize_ok hpos, rfl, rfl, ?_, ?_, ?_⟩
  · intro i j hmin
    show normalizePix im i j = 0
    unfold normalizePix
    rw [hmin]
    split
    · rfl
    · simp [rdivEven_zero]
  · intro i j hmax hlt
    show normalizePix im i j = 255
    unfold normalizePix
    rw [hmax, if_neg (by omega)]
    rw [rdivEven_mul255 _ (by omega)]
    simp
  · intro heq i j
    show normalizePix im i j = 0
    unfold normalizePix
    rw [if_pos (le_of_eq heq.symm)]

/-- Witness for C6 at a concrete non-constant 1 × 2 image `[10, 20]`. -/
theorem claim6_witness :
    ∃ nim, normalize ⟨1, 2, fun _ j => if j = 0 then 10 else 20⟩ = .ok nim ∧
      nim.h = 1 ∧ nim.w = 2 ∧
      (∀ i j, (⟨1, 2, fun _ j => if j = 0 then 10 else 20⟩ : Gray).pix i j
          = minPix ⟨1, 2, fun _ j => if j = 0 then 10 else 20⟩ →
        nim.pix i j = 0) ∧
      (∀ i j, (⟨1, 2, fun _ j => if j = 0 then 10 else 20⟩ : Gray).pix i j
          = maxPix ⟨1, 2, fun _ j => if j = 0 then 10 else 20⟩ →
        minPix ⟨1, 2, fun _ j => if j = 0 then 10 else 20⟩
          < maxPix ⟨1, 2, fun _ j => if j = 0 then 10 else 20⟩ →
        nim.pix i j = 255) ∧
      (minPix ⟨1, 2, fun _ j => if j = 0 then 10 else 20⟩
          = maxPix ⟨1, 2, fun _ j => if j = 0 then 10 else 20⟩ →
        ∀ i j, nim.pix i j = 0) :=
  claim6_normalize ⟨1, 2, fun _ j => if j = 0 then 10 else 20⟩ (by norm_num)

/-- C5 counterexample.  The claim says a pixel BELOW its local threshold is
assigned 255 and a pixel at or above it is assigned 0 (`THRESH_BINARY_INV`
polarity).  The code passes `THRESH_BINARY`: on a constant image of value 5
every pixel sits ABOVE its threshold 5 − 2 = 3, and the output is 255, not
the 0 the claim requires. -/
theorem claim5_cex :
    pixOfResult (binarize ⟨1, 1, fun _ _ => 5⟩) 0 0 = 255 ∧
    adaptiveMean11 (gaussianBlur 5 5 ⟨1, 1, fun _ _ => 5⟩) 0 0 - 2
      ≤ ((gaussianBlur 5 5 ⟨1, 1, fun _ _ => 5⟩).pix 0 0 : Int) ∧
    (255 : Nat) ≠ 0 := by
  have hc : ConstPix (⟨1, 1, fun _ _ => 5⟩ : Gray) 5 := fun _ _ => rfl
  have hbl : ConstPix (gaussianBlur 5 5 ⟨1, 1, fun _ _ => 5⟩) 5 :=
    gaussianBlur_const hc (by norm_num) (by norm_num)
  refine ⟨?_, ?_, by norm_num⟩
  · rw [binarize_const hc (by norm_num)]
    rfl
  · rw [hbl 0 0]
    unfold adaptiveMean11
    rw [gBlurPix_const hbl (by norm_num) (by norm_num)]
    omega

/-- C5 (corrected).  For every non-empty grayscale input, `binarize` first
blurs with the 5×5 Gaussian and then assigns 255 to a pixel STRICTLY ABOVE
its local threshold (the Gaussian-weighted 11×11 neighborhood mean of the
blurred image minus 2) and 0 to a pixel at or below it — the opposite
polarity of the claim (ink, being below threshold, becomes the DARK class);
every output pixel is 0 or 255. -/
theorem claim5_binarize (im : Gray) (hpos : ¬ im.h * im.w = 0) :
    ∃ bim, binarize im = .ok bim ∧ bim.h = im.h ∧ bim.w = im.w ∧
      ∀ i j,
        (bim.pix i j = 0 ∨ bim.pix i j = 255) ∧
        (adaptiveMean11 (gaussianBlur 5 5 im) i j - 2
            < ((gaussianBlur 5 5 im).pix i j : Int) →
          bim.pix i j = 255) ∧
        (((gaussianBlur 5 5 im).pix i j : Int)
            ≤ adaptiveMean11 (gaussianBlur 5 5 im) i j - 2 →
          bim.pix i j = 0) := by
  refine ⟨⟨im.h, im.w, binarizePix (gaussianBlur 5 5 im)⟩, binarize_ok hpos,
    rfl, rfl, ?_⟩
  intro i j
  have hpx : (⟨im.h, im.w, binarizePix (gaussianBlur 5 5 im)⟩ : Gray).pix i j
      = binarizePix (gaussianBlur 5 5 im) i j := rfl
  have hcase :
      (adaptiveMean11 (gaussianBlur 5 5 im) i j - 2
          < ((gaussianBlur 5 5 im).pix i j : Int)
        ∧ binarizePix (gaussianBlur 5 5 im) i j = 255) ∨
      (((gaussianBlur 5 5 im).pix i j : Int)
          ≤ adaptiveMean11 (gaussianBlur 5 5 im) i j - 2
        ∧ binarizePix (gaussianBlur 5 5 im) i j = 0) := by
    unfold binarizePix
    by_cases h : adaptiveMean11 (gaussianBlur 5 5 im) i j - 2
        < ((gaussianBlur 5 5 im).pix i j : Int)
    · exact Or.inl ⟨h, if_pos h⟩
    · exact Or.inr ⟨by omega, if_neg h⟩
  refine ⟨?_, ?_, ?_⟩
  · rcases hcase with ⟨_, heq⟩ | ⟨_, heq⟩
    · exact Or.inr (hpx.trans heq)
    · exact Or.inl (hpx.trans heq)
  · intro hlt
    rcases hcase with ⟨_, heq⟩ | ⟨hge, _⟩
    · exact hpx.trans heq
    · omega
  · intro hge
    rcases hcase with ⟨hlt, _⟩ | ⟨_, heq⟩
    · omega
    · exact hpx.trans heq

theorem process_single_image_success {decode : String → Option Gray}
    {imwriteOk : String → Bool} {p : String} {im : Gray} {out : Img}
    (hdec : decode p = some im) (hproc : process_image (.gray im) = .ok out) :
    process_single_image decode imwriteOk p = .success (outputPath p) := by
  unfold process_single_image
  rw [hdec]
  dsimp only
  rw [hproc]

theorem process_single_image_unreadable {decode : String → Option Gray}
    {imwriteOk : String → Bool} {p : String} (hdec : decode p = none) :
    process_single_image decode imwriteOk p
      = .failure p ("Could not read image: " ++ p) := by
  unfold process_single_image
  rw [hdec]

/-- C7 counterexample.  The claim says the crop stage FAILS (with an
`InvalidImageError`) whenever its input has height ≤ 250 or width ≤ 40.  On
a 100 × 100 image, `image[:-250, 20:-20]` silently returns an empty 0 × 60
view — a result, not an error; the failure only happens at the NEXT stage
(`cv2.normalize`'s min/max scan asserts on the empty image), and no
`InvalidImageError` class exists anywhere in the source. -/
theorem claim7_cex :
    crop ⟨100, 100, fun _ _ => 7⟩ = ⟨0, 60, fun i j => 7⟩ ∧
    process_image (.gray ⟨100, 100, fun _ _ => 7⟩)
      = .error (.cvError "minMaxIdx: empty input") := by
  constructor
  · exact congrArg (Gray.mk 0 60) rfl
  · have hz : (crop ⟨100, 100, fun _ _ => 7⟩).h
        * (crop ⟨100, 100, fun _ _ => 7⟩).w = 0 := by
      rw [crop_h, crop_w]
      norm_num
    have hn : normalize (crop ⟨100, 100, fun _ _ => 7⟩)
        = .error (.cvError "minMaxIdx: empty input") := by
      unfold normalize
      rw [if_pos hz]
    unfold process_image
    dsimp only
    rw [hn, except_bind_error]

/-- C7 (corrected).  For every grayscale image with height ≤ 250 or width ≤
40, `crop` does NOT fail: it returns a zero-area image (numpy slicing
clamps).  The pipeline then fails at the first OpenCV stage that scans the
pixels — `normalize`, whose min/max search asserts on an empty input — and
`process_image` propagates that error to the caller uncaught.  The source
defines no `InvalidImageError`; the failures are OpenCV `cv2.error`
assertions. -/
theorem claim7_degenerate_crop (im : Gray) (h : im.h ≤ 250 ∨ im.w ≤ 40) :
    ((crop im).h = 0 ∨ (crop im).w = 0) ∧
    process_image (.gray im) = .error (.cvError "minMaxIdx: empty input") := by
  have hz : (crop im).h * (crop im).w = 0 := by
    rw [crop_h, crop_w]
    rcases h with h | h
    · have : im.h - 250 = 0 := by omega
      rw [this, Nat.zero_mul]
    · have : im.w - 40 = 0 := by omega
      rw [this, Nat.mul_zero]
  constructor
  · rw [crop_h, crop_w]
    omega
  · have hn : normalize (crop im) = .error (.cvError "minMaxIdx: empty input") := by
      unfold normalize
      rw [if_pos hz]
    unfold process_image
    dsimp only
    rw [hn, except_bind_error]

/-- Witness for C7 at the concrete 100 × 100 image. -/
theorem claim7_witness :
    ((crop ⟨100, 100, fun _ _ => 3⟩).h = 0 ∨ (crop ⟨100, 100, fun _ _ => 3⟩).w = 0) ∧
    process_image (.gray ⟨100, 100, fun _ _ => 3⟩)
      = .error (.cvError "minMaxIdx: empty input") :=
  claim7_degenerate_crop ⟨100, 100, fun _ _ => 3⟩ (by norm_num)

/-- C4 (confirmed).  When the segmentation stage finds no contours in the
mask built by `enthicken`, `segment_image` returns its grayscale input
unchanged — the same single-channel image, pixel for pixel. -/
theorem claim4_segment_fallback (img : Gray)
    (h : findContours (enthicken img) = []) :
    segment_image img = .gray img := by
  unfold segment_image
  rw [h]

/-- Witness for C4: a uniform 3 × 3 image produces no edges, hence an
all-zero mask and no contours, and comes back unchanged. -/
theorem claim4_witness :
    findContours (enthicken ⟨3, 3, fun _ _ => 5⟩) = [] ∧
    segment_image ⟨3, 3, fun _ _ => 5⟩ = .gray ⟨3, 3, fun _ _ => 5⟩ := by
  have hempty : findContours (enthicken ⟨3, 3, fun _ _ => 5⟩) = [] :=
    findContours_const_zero (enthicken_const (fun _ _ => rfl))
  exact ⟨hempty, claim4_segment_fallback _ hempty⟩

/-- C1 counterexample.  The claim promises an output of height 1568 for
EVERY grayscale input with height > 250 and width > 40.  A uniform
157051 × 140 input survives every stage (segmentation takes the no-contour
fallback), but the resize stage computes `int(100 * 1568 / 156801) = 0` and
`cv2.resize` asserts on the empty requested size: the pipeline raises
instead of returning an image. -/
theorem claim1_cex :
    process_image (.gray ⟨157051, 140, fun _ _ => 7⟩)
      = .error (.cvError "resize: empty dsize") := by
  have hcrop : crop ⟨157051, 140, fun _ _ => 7⟩
      = ⟨156801, 100, fun _ _ => 7⟩ :=
    congrArg (Gray.mk 156801 100) rfl
  have harea : ¬ (156801 * 100 : Nat) = 0 := by norm_num
  have hn : normalize (⟨156801, 100, fun _ _ => 7⟩ : Gray)
      = .ok ⟨156801, 100, fun _ _ => 0⟩ :=
    normalize_const (fun _ _ => rfl) harea
  have hb : binarize (⟨156801, 100, fun _ _ => 0⟩ : Gray)
      = .ok ⟨156801, 100, fun _ _ => 255⟩ :=
    binarize_const (fun _ _ => rfl) harea
  have hd : denoise (⟨156801, 100, fun _ _ => 255⟩ : Gray)
      = .ok ⟨156801, 100, fun _ _ => 255⟩ := by
    have h := @denoise_const ⟨156801, 100, fun _ _ => 255⟩ 255
      (fun _ _ => rfl) harea
    exact h
  have hcov : cover_watermark_remnants (⟨156801, 100, fun _ _ => 255⟩ : Gray)
      = ⟨156801, 100, fun _ _ => 255⟩ := by
    have h := @cover_const_255 ⟨156801, 100, fun _ _ => 255⟩
      (fun _ _ => rfl)
    exact h
  have hf : fix_font (⟨156801, 100, fun _ _ => 255⟩ : Gray)
      = .ok ⟨156801, 100, fun _ _ => 255⟩ := by
    have h := @fix_font_const_255 ⟨156801, 100, fun _ _ => 255⟩
      (fun _ _ => rfl) harea
    exact h
  have hs : segment_image (⟨156801, 100, fun _ _ => 255⟩ : Gray)
      = .gray ⟨156801, 100, fun _ _ => 255⟩ :=
    @segment_image_const ⟨156801, 100, fun _ _ => 255⟩ 255 (fun _ _ => rfl)
  have hr : resize (.gray (⟨156801, 100, fun _ _ => 255⟩ : Gray))
      = .error (.cvError "resize: empty dsize") := by
    unfold resize resizeGray
    dsimp only
    rw [if_neg (by norm_num : ¬ (156801 : Nat) = 0)]
    rw [if_pos (by norm_num : (100 * 1568 / 156801 : Nat) = 0)]
    rfl
  unfold process_image
  dsimp only
  rw [hcrop, hn, except_bind_ok, hb, except_bind_ok, hd, except_bind_ok, hcov,
    hf, except_bind_ok, hs, hr]

/-- C1 (corrected).  For every grayscale input with height > 250, width > 40
AND a cropped aspect ratio that keeps the truncated resize width positive
(`(H − 250) ≤ (W − 40) × 1568`), the pipeline returns an image of height
exactly 1568 — through either segmentation branch (the resize stage forces
the height regardless of whether the fallback grayscale or the annotated
color image arrives).  Without the extra aspect-ratio condition the pipeline
can instead raise at the resize stage (see the counterexample). -/
theorem claim1_height_1568 (im : Gray) (h1 : 250 < im.h) (h2 : 40 < im.w)
    (h3 : im.h - 250 ≤ (im.w - 40) * 1568) :
    ∃ out, process_image (.gray im) = .ok out ∧ out.height = 1568 := by
  obtain ⟨out, hp, hh, _⟩ := process_image_ok im h1 h2 h3
  exact ⟨out, hp, hh⟩

/-- Witness for C1 at a concrete 300 × 100 image (no constancy needed: the
success of every stage is decided by dimensions alone). -/
theorem claim1_witness :
    ∃ out, process_image (.gray ⟨300, 100, fun i j => i + j⟩) = .ok out ∧
      out.height = 1568 :=
  claim1_height_1568 ⟨300, 100, fun i j => i + j⟩ (by norm_num) (by norm_num)
    (by norm_num)

/-- C8 (code bug).  `process_single_image` never checks the boolean that
`cv2.imwrite` returns: on an encode failure signalled the documented way
(return value `False`, e.g. unwritable destination) the task still reports
the SUCCESS result `"Created …"`.  Here the encoder is the constantly-false
oracle, the 300 × 100 input decodes and processes fine, and the result is a
success naming an output file that was never written — not the per-image
failure the claim requires. -/
theorem claim8_encode_failure_ignored :
    process_single_image (fun _ => some ⟨300, 100, fun _ _ => 7⟩)
      (fun _ => false) "page.png" = .success "page_preprocessed.png" := by
  obtain ⟨out, hp, _, _⟩ :=
    process_image_ok ⟨300, 100, fun _ _ => 7⟩ (by norm_num) (by norm_num)
      (by norm_num)
  rw [process_single_image_success rfl hp]
  rfl

theorem result_not_both (r : Result) :
    r.isSuccess = true → r.isFailure = false := by
  cases r <;> simp [Result.isSuccess, Result.isFailure]

theorem filter_map_all_success {α : Type} (f : α → Result) :
    ∀ l : List α, (∀ q ∈ l, (f q).isSuccess = true) →
      ((l.map f).filter Result.isFailure = [] ∧
        ((l.map f).filter Result.isSuccess).length = l.length) := by
  intro l
  induction l with
  | nil => intro _; exact ⟨rfl, rfl⟩
  | cons a t ih =>
    intro h
    have ha : (f a).isSuccess = true := h a (by simp)
    have haf : (f a).isFailure = false := result_not_both _ ha
    obtain ⟨ih1, ih2⟩ := ih fun q hq => h q (by simp [hq])
    constructor
    · simp [List.filter_cons, haf, ih1]
    · simp [List.filter_cons, ha, ih2]

theorem batch_one_failure {α : Type} [DecidableEq α] (f : α → Result) (bad : α) :
    ∀ l : List α, l.count bad = 1 →
      (f bad).isFailure = true →
      (∀ q ∈ l, q ≠ bad → (f q).isSuccess = true) →
      ((l.map f).filter Result.isFailure = [f bad] ∧
        ((l.map f).filter Result.isSuccess).length = l.length - 1) := by
  intro l
  induction l with
  | nil => intro h; simp at h
  | cons a t ih =>
    intro hcount hbadf hrest
    by_cases ha : a = bad
    · subst ha
      have hct : t.count a = 0 := by
        simp [List.count_cons] at hcount
        omega
      have hnot : a ∉ t := by
        rw [← List.count_eq_zero]
        exact hct
      have hall : ∀ q ∈ t, (f q).isSuccess = true := by
        intro q hq
        refine hrest q (by simp [hq]) ?_
        intro heq
        exact hnot (heq ▸ hq)
      obtain ⟨h1, h2⟩ := filter_map_all_success f t hall
      have hsf : (f a).isSuccess = false := by
        cases hfa : f a with
        | success o => rw [hfa] at hbadf; simp [Result.isFailure] at hbadf
        | failure p m => simp [Result.isSuccess]
      constructor
      · simp [List.filter_cons, hbadf, h1]
      · simp [List.filter_cons, hsf, h2]
    · have hba : (a == bad) = false := by
        rw [beq_eq_false_iff_ne]
        exact ha
      have hcount' : t.count bad = 1 := by
        rw [List.count_cons, hba] at hcount
        simpa using hcount
      have hrest' : ∀ q ∈ t, q ≠ bad → (f q).isSuccess = true :=
        fun q hq hne => hrest q (by simp [hq]) hne
      obtain ⟨ih1, ih2⟩ := ih hcount' hbadf hrest'
      have hsa : (f a).isSuccess = true := hrest a (by simp) ha
      have haf : (f a).isFailure = false := result_not_both _ hsa
      have hpos : 0 < t.length := by
        have hmem : bad ∈ t := by
          by_contra hno
          rw [← List.count_eq_zero] at hno
          omega
        exact List.length_pos_of_mem hmem
      constructor
      · simp [List.filter_cons, haf, ih1]
      · simp only [List.map_cons, List.filter_cons, hsa, if_pos,
          List.length_cons, ih2]
        simp
        omega

/-- C9 (confirmed).  When exactly one of the submitted paths is unreadable
(its decode returns nothing) and every other path's task succeeds, the batch
runner produces exactly one result per input: one failure result naming the
unreadable path and N − 1 successes — for every worker count (`batch_size`
only bounds concurrency; the set of per-task results does not depend on it),
and no per-image failure prevents the other results from being produced. -/
theorem claim9_batch_isolation (decode : String → Option Gray)
    (imwriteOk : String → Bool) (paths : List String) (bad : String) (bs : Nat)
    (hcount : paths.count bad = 1) (hbad : decode bad = none)
    (hrest : ∀ q ∈ paths, q ≠ bad →
      (process_single_image decode imwriteOk q).isSuccess = true) :
    (process_multiple_images decode imwriteOk paths bs).length = paths.length ∧
    (process_multiple_images decode imwriteOk paths bs).filter Result.isFailure
      = [.failure bad ("Could not read image: " ++ bad)] ∧
    ((process_multiple_images decode imwriteOk paths bs).filter
        Result.isSuccess).length = paths.length - 1 := by
  have hbadf : (process_single_image decode imwriteOk bad).isFailure = true := by
    rw [process_single_image_unreadable hbad]
    rfl
  obtain ⟨h1, h2⟩ := batch_one_failure (process_single_image decode imwriteOk)
    bad paths hcount hbadf hrest
  refine ⟨?_, ?_, ?_⟩
  · show (paths.map _).length = paths.length
    rw [List.length_map]
  · show (paths.map _).filter _ = _
    rw [h1, process_single_image_unreadable hbad]
  · exact h2

/-- Witness for C9: three paths, the middle one unreadable, worker count 2. -/
theorem claim9_witness :
    (process_multiple_images
      (fun s => if s = "bad.png" then none else some ⟨300, 100, fun _ _ => 7⟩)
      (fun _ => true) ["a.png", "bad.png", "b.png"] 2).length = 3 ∧
    (process_multiple_images
      (fun s => if s = "bad.png" then none else some ⟨300, 100, fun _ _ => 7⟩)
      (fun _ => true) ["a.png", "bad.png", "b.png"] 2).filter Result.isFailure
      = [.failure "bad.png" ("Could not read image: " ++ "bad.png")] ∧
    ((process_multiple_images
      (fun s => if s = "bad.png" then none else some ⟨300, 100, fun _ _ => 7⟩)
      (fun _ => true) ["a.png", "bad.png", "b.png"] 2).filter
        Result.isSuccess).length = 2 := by
  have h := claim9_batch_isolation
    (fun s => if s = "bad.png" then none else some ⟨300, 100, fun _ _ => 7⟩)
    (fun _ => true) ["a.png", "bad.png", "b.png"] "bad.png" 2
    (by decide)
    (by simp)
    ?hrest
  · exact ⟨h.1, h.2.1, h.2.2⟩
  case hrest =>
    intro q hq hne
    obtain ⟨out, hp, _, _⟩ := process_image_ok ⟨300, 100, fun _ _ => 7⟩
      (by norm_num) (by norm_num) (by norm_num)
    simp only [List.mem_cons, List.not_mem_nil, or_false] at hq
    rcases hq with rfl | rfl | rfl
    · rw [process_single_image_success (if_neg (by decide)) hp]
      rfl
    · exact absurd rfl hne
    · rw [process_single_image_success (if_neg (by decide)) hp]
      rfl

/-!
### The frame property of `process_image` (claim C10)
-/

theorem presA_allocG (h w : Nat) (f : Nat → Nat → Nat) : PresA (allocG h w f) := by
  intro hp h1
  refine ⟨?_, ?_, ?_⟩
  · show Function.update hp.mem hp.next (.g f) 0 = hp.mem 0
    exact Function.update_noteq (by omega) _ _
  · show 1 ≤ hp.next + 1
    omega
  · intro r hr
    have h2 : (⟨hp.next, 0, 0, h, w⟩ : Ref) = r := by
      injection hr
    rw [← h2]
    exact h1

theorem presA_allocC (h w : Nat) (f : Nat → Nat → Nat × Nat × Nat) :
    PresA (allocC h w f) := by
  intro hp h1
  refine ⟨?_, ?_, ?_⟩
  · show Function.update hp.mem hp.next (.c f) 0 = hp.mem 0
    exact Function.update_noteq (by omega) _ _
  · show 1 ≤ hp.next + 1
    omega
  · intro r hr
    have h2 : (⟨hp.next, 0, 0, h, w⟩ : Ref) = r := by
      injection hr
    rw [← h2]
    exact h1

theorem presA_pok (r : Ref) (hr : 1 ≤ r.id) : PresA (pok r) := by
  intro hp h1
  refine ⟨rfl, h1, ?_⟩
  intro r2 h2
  have h3 : r = r2 := by injection h2
  rw [← h3]
  exact hr

theorem presA_pbind {m : PSt Ref} {k : Ref → PSt Ref} (hm : PresA m)
    (hk : ∀ r2, 1 ≤ r2.id → PresA (k r2)) : PresA (pbind m k) := by
  intro hp h1
  obtain ⟨hmem, hnext, hid⟩ := hm hp h1
  rcases hme : m hp with ⟨res, hp2⟩
  rw [hme] at hmem hnext hid
  cases res with
  | error e =>
    have hred : (pbind m k) hp = (.error e, hp2) := by
      unfold pbind
      rw [hme]
    rw [hred]
    exact ⟨hmem, hnext, fun r2 h2 => Except.noConfusion h2⟩
  | ok a =>
    have hred : (pbind m k) hp = k a hp2 := by
      unfold pbind
      rw [hme]
    rw [hred]
    have ha : 1 ≤ a.id := hid a rfl
    obtain ⟨kmem, knext, kid⟩ := hk a ha hp2 hnext
    exact ⟨kmem.trans hmem, knext, kid⟩

theorem presA_normalizeSt (r : Ref) : PresA (normalizeSt r) := by
  intro hp h1
  unfold normalizeSt
  dsimp only
  split
  · exact ⟨rfl, h1, fun r2 h2 => Except.noConfusion h2⟩
  · exact presA_allocG _ _ _ hp h1

theorem presA_binarizeSt (r : Ref) : PresA (binarizeSt r) := by
  intro hp h1
  unfold binarizeSt
  dsimp only
  split
  · exact ⟨rfl, h1, fun r2 h2 => Except.noConfusion h2⟩
  · exact presA_pbind (presA_allocG _ _ _)
      (fun _ _ => presA_allocG _ _ _) hp h1

theorem presA_denoiseSt (r : Ref) : PresA (denoiseSt r) := by
  intro hp h1
  unfold denoiseSt
  dsimp only
  split
  · exact ⟨rfl, h1, fun r2 h2 => Except.noConfusion h2⟩
  · exact presA_pbind (presA_allocG _ _ _)
      (fun _ _ => presA_allocG _ _ _) hp h1

theorem presA_coverSt (r : Ref) (hr : 1 ≤ r.id) : PresA (coverSt r) := by
  intro hp h1
  unfold coverSt
  refine ⟨?_, h1, ?_⟩
  · show Function.update hp.mem r.id _ 0 = hp.mem 0
    exact Function.update_noteq (by omega) _ _
  · intro r2 h2
    have h3 : r = r2 := by injection h2
    rw [← h3]
    exact hr

theorem presA_fixFontSt (r : Ref) : PresA (fixFontSt r) := by
  intro hp h1
  unfold fixFontSt
  dsimp only
  split
  · exact ⟨rfl, h1, fun r2 h2 => Except.noConfusion h2⟩
  · exact presA_pbind (presA_allocG _ _ _) (fun _ _ =>
      presA_pbind (presA_allocG _ _ _) (fun _ _ =>
      presA_pbind (presA_allocG _ _ _) (fun _ _ =>
      presA_pbind (presA_allocG _ _ _) (fun _ _ =>
      presA_allocG _ _ _)))) hp h1

theorem presA_enthickenSt (r : Ref) : PresA (enthickenSt r) := by
  intro hp h1
  unfold enthickenSt
  dsimp only
  exact presA_pbind (presA_allocG _ _ _) (fun _ _ =>
    presA_pbind (presA_allocG _ _ _) (fun _ _ =>
    presA_pbind (presA_allocG _ _ _) (fun _ _ =>
    presA_pbind (presA_allocG _ _ _) (fun _ _ =>
    presA_allocG _ _ _)))) hp h1

theorem presA_drawRectSt (x w imgH : Nat) (r : Ref) (hr : 1 ≤ r.id) :
    PresA (drawRectSt x w imgH r) := by
  intro hp h1
  unfold drawRectSt
  refine ⟨?_, h1, ?_⟩
  · show Function.update hp.mem r.id _ 0 = hp.mem 0
    exact Function.update_noteq (by omega) _ _
  · intro r2 h2
    have h3 : r = r2 := by injection h2
    rw [← h3]
    exact hr

theorem presA_segmentSt (r : Ref) (hr : 1 ≤ r.id) : PresA (segmentSt r) := by
  intro hp h1
  unfold segmentSt
  dsimp only
  refine presA_pbind (presA_enthickenSt r) ?_ hp h1
  intro rm _
  cases hfc : findContours (enthicken (readG hp r)) with
  | nil => exact presA_pok r hr
  | cons c0 cs =>
    exact presA_pbind (presA_allocC _ _ _)
      (fun rc hrc => presA_drawRectSt _ _ _ rc hrc)

theorem presA_resizeSt (r : Ref) : PresA (resizeSt r) := by
  intro hp h1
  unfold resizeSt
  split
  · exact ⟨rfl, h1, fun r2 h2 => Except.noConfusion h2⟩
  · split
    · exact ⟨rfl, h1, fun r2 h2 => Except.noConfusion h2⟩
    · split
      · exact presA_allocG _ _ _ hp h1
      · exact presA_allocC _ _ _ hp h1

theorem presA_processChainSt (rg : Ref) : PresA (processChainSt rg) := by
  unfold processChainSt
  exact presA_pbind (presA_normalizeSt _) (fun rn _ =>
    presA_pbind (presA_binarizeSt _) (fun rb _ =>
    presA_pbind (presA_denoiseSt _) (fun rd hrd =>
    presA_pbind (presA_coverSt _ hrd) (fun rcv hrcv =>
    presA_pbind (presA_fixFontSt _) (fun rf hrf =>
    presA_pbind (presA_segmentSt _ hrf) (fun rs _ =>
    presA_resizeSt _))))))

theorem pres0_graySt (r : Ref) (hp : Heap) (h1 : 1 ≤ hp.next) :
    (graySt r hp).2.mem 0 = hp.mem 0 ∧ 1 ≤ (graySt r hp).2.next := by
  unfold graySt
  split
  · exact ⟨rfl, h1⟩
  · refine ⟨?_, ?_⟩
    · exact (presA_allocG _ _ _ hp h1).1
    · exact (presA_allocG _ _ _ hp h1).2.1

/-- C10 (confirmed, at the buffer level).  `crop` is pure view arithmetic
(the returned reference keeps the caller's buffer id), and running the whole
pipeline writes only to buffers allocated along the way (id ≥ 1) — through
both `cv2.rectangle` in-place writes and both segmentation branches, on both
grayscale and color inputs, and on every failure path: after
`process_image` returns, buffer 0, the caller's input pixel buffer, holds
exactly its original content. -/
theorem claim10_no_input_mutation (b : Buf) (rest : Nat → Buf) (H W : Nat) :
    (cropSt ⟨0, 0, 0, H, W⟩).id = 0 ∧
    ((process_image_st ⟨0, 0, 0, H, W⟩)
      ⟨fun n => if n = 0 then b else rest n, 1⟩).2.mem 0 = b := by
  constructor
  · rfl
  · set hp0 : Heap := ⟨fun n => if n = 0 then b else rest n, 1⟩ with hhp0
    have hmem0 : hp0.mem 0 = b := by
      rw [hhp0]
      simp
    have h1 : 1 ≤ hp0.next := le_refl 1
    unfold process_image_st
    obtain ⟨hgm, hgn⟩ := pres0_graySt ⟨0, 0, 0, H, W⟩ hp0 h1
    rcases hge : graySt ⟨0, 0, 0, H, W⟩ hp0 with ⟨res, hp2⟩
    rw [hge] at hgm hgn
    cases res with
    | error e =>
      have hred : (pbind (graySt ⟨0, 0, 0, H, W⟩) processChainSt) hp0
          = (.error e, hp2) := by
        unfold pbind
        rw [hge]
      rw [hred]
      exact hgm.trans hmem0
    | ok a =>
      have hred : (pbind (graySt ⟨0, 0, 0, H, W⟩) processChainSt) hp0
          = processChainSt a hp2 := by
        unfold pbind
        rw [hge]
      rw [hred]
      obtain ⟨hcm, _, _⟩ := presA_processChainSt a hp2 hgn
      exact (hcm.trans hgm).trans hmem0

/-- Witness for C5 at the concrete constant 1 × 1 image of value 5. -/
theorem claim5_witness :
    ∃ bim, binarize ⟨1, 1, fun _ _ => 5⟩ = .ok bim ∧ bim.h = 1 ∧ bim.w = 1 ∧
      ∀ i j,
        (bim.pix i j = 0 ∨ bim.pix i j = 255) ∧
        (adaptiveMean11 (gaussianBlur 5 5 ⟨1, 1, fun _ _ => 5⟩) i j - 2
            < ((gaussianBlur 5 5 ⟨1, 1, fun _ _ => 5⟩).pix i j : Int) →
          bim.pix i j = 255) ∧
        (((gaussianBlur 5 5 ⟨1, 1, fun _ _ => 5⟩).pix i j : Int)
            ≤ adaptiveMean11 (gaussianBlur 5 5 ⟨1, 1, fun _ _ => 5⟩) i j - 2 →
          bim.pix i j = 0) :=
  claim5_binarize ⟨1, 1, fun _ _ => 5⟩ (by norm_num)

end Preprocess

